import Mathlib

/-!
Verification development for the OPML extraction pipeline in
`opml_to_csv.py`.  Strings are modelled as `List Char`.  Python regular
expression searches are modelled by deterministic scanners that follow the
backtracking order of the concrete patterns used in the source; Python
`str.replace` is modelled by a fuel-indexed scanner (`replaceListF`).
External collaborators (file IO, `xml.etree.ElementTree.fromstring`,
runtime faults during traversal) are modelled by an environment record
`DocEnv`, since the XML library is not part of the repository.
-/

abbrev Str := List Char

/-- The double-quote character, written via its code point. -/
def quoteC : Char := Char.ofNat 34

/-- The single-quote character, written via its code point. -/
def aposC : Char := Char.ofNat 39

/-- Decidable prefix test on character lists. -/
def isPref : Str → Str → Bool
  | [], _ => true
  | _ :: _, [] => false
  | p :: ps, c :: cs => if p = c then isPref ps cs else false

/-- Case-insensitive character comparison, as used by `re.IGNORECASE`
on ASCII letters. -/
def ciChar (p c : Char) : Bool := p.toLower = c.toLower

/-- Case-insensitive prefix test. -/
def ciPrefix : Str → Str → Bool
  | [], _ => true
  | _ :: _, [] => false
  | p :: ps, c :: cs => if ciChar p c then ciPrefix ps cs else false

/-- Whether `pat` occurs as a substring. -/
def hasOcc (pat : Str) : Str → Bool
  | [] => isPref pat []
  | c :: cs => isPref pat (c :: cs) || hasOcc pat cs

/-- Whether `pat` occurs as a substring up to ASCII case. -/
def hasOccCi (pat : Str) : Str → Bool
  | [] => ciPrefix pat []
  | c :: cs => ciPrefix pat (c :: cs) || hasOccCi pat cs

/-- Split a list at the first occurrence of the character `q`:
returns the part before `q` (which does not contain `q`) and the part
after it.  This models the regex idiom of a negated character class
followed by the literal `q`. -/
def splitOnChar (q : Char) : Str → Option (Str × Str)
  | [] => none
  | c :: cs =>
    if c = q then some ([], cs)
    else
      match splitOnChar q cs with
      | some (a, b) => some (c :: a, b)
      | none => none

/-- Fuel-indexed model of Python `str.replace`: scans left to right and
replaces each non-overlapping occurrence of `pat` by `rep`, never
rescanning the replacement text.  The fuel only needs to dominate the
length of the subject string. -/
def replaceListF (pat rep : Str) : Nat → Str → Str
  | 0, s => s
  | _ + 1, [] => []
  | f + 1, c :: cs =>
    if pat ≠ [] ∧ isPref pat (c :: cs) = true then
      rep ++ replaceListF pat rep f (List.drop (pat.length - 1) cs)
    else
      c :: replaceListF pat rep f cs

/-- Python `str.replace` on character lists. -/
def replaceList (pat rep s : Str) : Str := replaceListF pat rep s.length s

/-- Replacement of every occurrence of a single character by a string,
used to reason about the single-character `str.replace` calls. -/
def subst1 (a : Char) (rep : Str) (s : Str) : Str :=
  s.flatMap fun c => if c = a then rep else [c]

/-- ASCII digit test, stated on code points. -/
def isDigitC (c : Char) : Bool := 48 ≤ c.toNat && c.toNat ≤ 57

/-- Hexadecimal digit test, as in the character class of the
ampersand-escaping regex. -/
def isHexC (c : Char) : Bool :=
  isDigitC c || (97 ≤ c.toNat && c.toNat ≤ 102) || (65 ≤ c.toNat && c.toNat ≤ 70)

/-- Matches the regex fragment matching a decimal numeric character
reference body: one or more ASCII digits followed by a semicolon.
Python counts some non-ASCII digits as digits; the model restricts to
ASCII, which is the only case the repository data exercises. -/
def digRun (r : Str) : Bool :=
  r.takeWhile isDigitC ≠ [] &&
    match r.dropWhile isDigitC with
    | ';' :: _ => true
    | _ => false

/-- Matches a hexadecimal numeric character reference body. -/
def hexRun (r : Str) : Bool :=
  r.takeWhile isHexC ≠ [] &&
    match r.dropWhile isHexC with
    | ';' :: _ => true
    | _ => false

/-- A decimal numeric character reference: `#`, digits, `;`. -/
def numRef : Str → Bool
  | [] => false
  | c :: r => c = '#' && digRun r

/-- A hexadecimal numeric character reference: `#x`, hex digits, `;`.
On text starting with `#x` the decimal alternative can never fire, so
testing both alternatives independently agrees with the regex. -/
def hexRef : Str → Bool
  | [] => false
  | [_] => false
  | c :: c2 :: r => c = '#' && c2 = 'x' && hexRun r

/-- The negative-lookahead body of the ampersand-escaping regex in
`fix_xml_encoding`: text following an ampersand that makes the
ampersand count as the start of a recognized entity reference. -/
def entityTail (cs : Str) : Bool :=
  isPref "amp;".toList cs || isPref "lt;".toList cs || isPref "gt;".toList cs ||
  isPref "quot;".toList cs || isPref "apos;".toList cs ||
  numRef cs || hexRef cs

/-- The substitution performed by
`re.sub(ampersand-lookahead-pattern, "&amp;", text)`: every ampersand
whose continuation is not a recognized entity reference is rewritten to
the five characters of the string `&amp;`.  The match is a single
character, so scanning resumes right after the ampersand in the original
text. -/
def escapeAmps : Str → Str
  | [] => []
  | c :: cs =>
    if c = '&' ∧ entityTail cs = false then
      '&' :: 'a' :: 'm' :: 'p' :: ';' :: escapeAmps cs
    else
      c :: escapeAmps cs

/-- The ordered list of single-character smart-typography replacements of
`fix_xml_encoding`, lines 31 to 43 of the source, including the
duplicated trailing replacements. -/
def smartSubsts : List (Char × Str) :=
  [(Char.ofNat 0x2019, [aposC]),
   (Char.ofNat 0x201c, [quoteC]),
   (Char.ofNat 0x201d, [quoteC]),
   (Char.ofNat 0x2013, ['-']),
   (Char.ofNat 0x2014, ['-']),
   (Char.ofNat 0x00a0, [' ']),
   (Char.ofNat 0x2026, ['.', '.', '.']),
   (Char.ofNat 0x2018, [aposC]),
   (Char.ofNat 0x2019, [aposC]),
   (Char.ofNat 0x201c, [quoteC]),
   (Char.ofNat 0x201d, [quoteC])]

/-- Apply a list of single-character replacements in order. -/
def applySubsts (l : List (Char × Str)) (s : Str) : Str :=
  l.foldl (fun acc p => replaceList [p.1] p.2 acc) s

/-- `fix_xml_encoding`: the ampersand-escaping substitution, then the
replacement of the literal `&nbsp;` by a space, then the sequence of
single-character smart-typography replacements, in source order. -/
def fix_xml_encoding (s : Str) : Str :=
  applySubsts smartSubsts (replaceList "&nbsp;".toList [' '] (escapeAmps s))

/-- Fuel-indexed model of the fragment of Python `html.unescape` used by
the pipeline: decodes the basic named character references with a
trailing semicolon.  The full CPython table is much larger; the model
covers the references relevant to this development, which is all the
claims need since they never depend on exotic entities. -/
def htmlUnescapeF : Nat → Str → Str
  | 0, s => s
  | _ + 1, [] => []
  | f + 1, c :: cs =>
    if c = '&' then
      if isPref "amp;".toList cs then '&' :: htmlUnescapeF f (List.drop 4 cs)
      else if isPref "lt;".toList cs then '<' :: htmlUnescapeF f (List.drop 3 cs)
      else if isPref "gt;".toList cs then '>' :: htmlUnescapeF f (List.drop 3 cs)
      else if isPref "quot;".toList cs then quoteC :: htmlUnescapeF f (List.drop 5 cs)
      else if isPref "apos;".toList cs then aposC :: htmlUnescapeF f (List.drop 5 cs)
      else c :: htmlUnescapeF f cs
    else c :: htmlUnescapeF f cs

/-- `html.unescape` on character lists (basic entity model). -/
def htmlUnescape (s : Str) : Str := htmlUnescapeF s.length s

/-- One extracted feed entry, with the five fields written by the
pipeline. -/
structure FeedRecord where
  title : Str
  description : Str
  url : Str
  type : Str
  category : Str
deriving DecidableEq, Repr

/-- An XML element tree, the result of a successful
`xml.etree.ElementTree.fromstring`.  Attribute values are stored
entity-decoded, as `ElementTree` delivers them. -/
inductive XmlElem : Type where
  | mk (tag : Str) (attrs : List (Str × Str)) (children : List XmlElem)

def XmlElem.tag : XmlElem → Str
  | .mk t _ _ => t

def XmlElem.attrs : XmlElem → List (Str × Str)
  | .mk _ a _ => a

def XmlElem.children : XmlElem → List XmlElem
  | .mk _ _ cs => cs

/-- `element.get(name)`: first binding of the attribute name. -/
def attrGet (name : Str) : List (Str × Str) → Option Str
  | [] => none
  | (n, v) :: r => if n = name then some v else attrGet name r

mutual
/-- All elements of the subtree rooted at an element, in document
order (the element itself first, then its descendants). -/
def descElem : XmlElem → List XmlElem
  | XmlElem.mk t a cs => XmlElem.mk t a cs :: descForest cs

/-- All elements of a forest, in document order. -/
def descForest : List XmlElem → List XmlElem
  | [] => []
  | e :: es => descElem e ++ descForest es
end

def outlineT : Str := "outline".toList
def xmlUrlT : Str := "xmlUrl".toList
def textT : Str := "text".toList
def titleT : Str := "title".toList
def descriptionT : Str := "description".toList
def typeT : Str := "type".toList
def rssT : Str := "rss".toList

/-- `root.findall(".//outline")`: every proper descendant of the root
whose tag is `outline`, in document order. -/
def findallOutline (root : XmlElem) : List XmlElem :=
  (descForest root.children).filter fun e => e.tag = outlineT

/-- The body of the primary extraction loop, lines 76 to 93 of the
source: an outline element yields a record exactly when its `xmlUrl`
attribute is present and non-empty. -/
def recordOf (cat : Str) (e : XmlElem) : Option FeedRecord :=
  match attrGet xmlUrlT e.attrs with
  | none => none
  | some u =>
    if u = [] then none
    else
      let t0 : Str :=
        match attrGet textT e.attrs with
        | some v => if v = [] then (attrGet titleT e.attrs).getD [] else v
        | none => (attrGet titleT e.attrs).getD []
      let d0 : Str := (attrGet descriptionT e.attrs).getD []
      let ty : Str := (attrGet typeT e.attrs).getD rssT
      some ⟨if t0 = [] then [] else htmlUnescape t0,
            if d0 = [] then [] else htmlUnescape d0, u, ty, cat⟩

/-- The primary tree-walk extraction: the loop of `parse_opml_file` over
`root.findall(".//outline")`. -/
def primaryRecords (root : XmlElem) (cat : Str) : List FeedRecord :=
  (findallOutline root).filterMap (recordOf cat)

/-- The records contributed by the primary loop after it has processed
only the first `k` elements of the `findall` result (used to model a
traversal interrupted by an exception). -/
def primaryPartial (root : XmlElem) (cat : Str) (k : Nat) : List FeedRecord :=
  ((findallOutline root).take k).filterMap (recordOf cat)

/-- The per-element record former used to state order preservation of
the primary walk. -/
def outlineRecord (cat : Str) (e : XmlElem) : List FeedRecord :=
  if e.tag = outlineT then (recordOf cat e).toList else []

/-- The primary extraction restricted to a forest of elements; the whole
primary walk is this applied to the children of the root. -/
def primaryForest (es : List XmlElem) (cat : Str) : List FeedRecord :=
  ((descForest es).filter fun e => e.tag = outlineT).filterMap (recordOf cat)

/-- One match of the fallback regex: the full matched tag text
(group 0), the captured `xmlUrl` value (group 1), and the text after the
match. -/
structure FbMatch where
  g0 : Str
  url : Str
  rest : Str
deriving DecidableEq, Repr

/-- The pattern `xmlUrl="`, matched case-insensitively. -/
def urlPat : Str := "xmlUrl=".toList ++ [quoteC]

/-- The pattern `<outline`. -/
def outlinePat : Str := "<outline".toList

/-- Python `\s` on the ASCII range (the only whitespace the data
contains). -/
def isPyWs (c : Char) : Bool :=
  c = ' ' || c = '\t' || c = '\n' || c = '\r' || c = Char.ofNat 11 || c = Char.ofNat 12

/-- The search for `[^>]*?xmlUrl="([^"]*)"[^>]*?>` after the mandatory
whitespace: walk forward without crossing `>`, try `xmlUrl="` at each
position (earliest first, matching the lazy quantifier), capture up to
the next double quote, then consume up to and including the next `>`.
A position where the capture cannot be closed is abandoned and the walk
resumes, which is exactly the backtracking order of the Python engine.
Returns the consumed text, the capture and the remaining text. -/
def findUrl : Str → Option (Str × Str × Str)
  | [] => none
  | c :: cs =>
    match
      (if ciPrefix urlPat (c :: cs) then
        match splitOnChar quoteC (List.drop 8 (c :: cs)) with
        | some (u, after) =>
          match splitOnChar '>' after with
          | some (mid, rest) =>
            some (List.take 8 (c :: cs) ++ u ++ quoteC :: mid ++ ['>'], u, rest)
          | none => none
        | none => none
      else none) with
    | some r => some r
    | none =>
      if c = '>' then none
      else
        match findUrl cs with
        | some (con, u, rest) => some (c :: con, u, rest)
        | none => none

/-- Attempt the fallback regex at the start of the text: the literal
`<outline` (case-insensitive), one whitespace character, then
`findUrl`. -/
def matchAt (s : Str) : Option FbMatch :=
  if ciPrefix outlinePat s then
    match List.drop 8 s with
    | [] => none
    | c :: _ =>
      if isPyWs c then
        match findUrl (List.drop 8 s) with
        | some (con, u, rest) => some ⟨List.take 8 s ++ con, u, rest⟩
        | none => none
      else none
  else none

/-- Fuel-indexed `re.finditer` over the fallback pattern: try a match at
every position from left to right; after a match, resume after its end
(non-overlapping matches). -/
def fbMatchesF : Nat → Str → List FbMatch
  | 0, _ => []
  | f + 1, s =>
    match matchAt s with
    | some m => m :: fbMatchesF f m.rest
    | none =>
      match s with
      | [] => []
      | _ :: cs => fbMatchesF f cs

/-- All fallback matches of a text, in order of appearance. -/
def fbMatches (s : Str) : List FbMatch := fbMatchesF s.length s

/-- Model of `re.search(name + "=\"([^\"]*)\"", g0)` (case-sensitive):
first occurrence of `name="`, capturing up to the next double quote; an
occurrence with no closing quote is skipped, as the engine backtracks
past it. -/
def searchAttr (nm : Str) : Str → Option Str
  | [] => none
  | c :: cs =>
    if isPref (nm ++ '=' :: [quoteC]) (c :: cs) then
      match splitOnChar quoteC (List.drop (nm.length + 2) (c :: cs)) with
      | some (v, _) => some v
      | none => searchAttr nm cs
    else searchAttr nm cs

/-- The per-match body of the fallback loop, lines 129 to 167 of the
source. -/
def fbRecordOf (cat : Str) (m : FbMatch) : Option FeedRecord :=
  if m.url = [] then none
  else
    let t1 : Str := (searchAttr textT m.g0).getD []
    let t2 : Str := if t1 = [] then (searchAttr titleT m.g0).getD [] else t1
    let d : Str := (searchAttr descriptionT m.g0).getD []
    let ty : Str :=
      match searchAttr typeT m.g0 with
      | some v => v
      | none => rssT
    some ⟨if t2 = [] then [] else htmlUnescape t2,
          if d = [] then [] else htmlUnescape d, m.url, ty, cat⟩

/-- The fallback pattern scan applied to a text. -/
def fbRecords (s : Str) (cat : Str) : List FeedRecord :=
  (fbMatches s).filterMap (fbRecordOf cat)

/-- Exceptions of the two classes the source distinguishes:
`xml.etree.ElementTree.ParseError` and every other `Exception`. -/
inductive PyExn : Type where
  | parseErr : PyExn
  | otherErr : PyExn
deriving DecidableEq

/-- The effectful collaborators of one document-level call: the outcome
of the first file read, the behaviour of `ET.fromstring` on the parsed
text, an optional runtime fault during the traversal loop (`some k`
means an exception is raised after `k` loop iterations), and the outcome
of the second file read performed by the fallback. -/
structure DocEnv where
  readResult : Except Unit Str
  fromstring : Str → Except PyExn XmlElem
  primaryExn : Option Nat
  readFbResult : Except Unit Str

/-- `parse_opml_file_fallback`: re-reads the file and scans the raw
content; its internal `try` returns the records accumulated so far if
anything raises (nothing is accumulated before the read completes). -/
def parse_opml_file_fallback (env : DocEnv) (cat : Str) : List FeedRecord :=
  match env.readFbResult with
  | .error _ => []
  | .ok content => fbRecords content cat

/-- The body of the `try` block of `parse_opml_file`: read, normalize,
parse, walk.  An error value carries the records accumulated before the
exception was raised, which the handlers can observe. -/
def docBody (env : DocEnv) (cat : Str) : Except (PyExn × List FeedRecord) (List FeedRecord) :=
  match env.readResult with
  | .error _ => .error (PyExn.otherErr, [])
  | .ok raw =>
    match env.fromstring (fix_xml_encoding raw) with
    | .error e => .error (e, [])
    | .ok root =>
      match env.primaryExn with
      | none => .ok (primaryRecords root cat)
      | some k => .error (PyExn.otherErr, primaryPartial root cat k)

/-- `parse_opml_file`: the `try` body with its two handlers.  A
`ParseError` triggers the fallback (itself total); any other exception
is logged and the records accumulated so far are returned.  The result
is an `Except` whose error case would represent an exception escaping
to the caller. -/
def parse_opml_file (env : DocEnv) (cat : Str) : Except PyExn (List FeedRecord) :=
  match docBody env cat with
  | .ok feeds => .ok feeds
  | .error (PyExn.parseErr, feeds) => .ok (feeds ++ parse_opml_file_fallback env cat)
  | .error (PyExn.otherErr, feeds) => .ok feeds

/-- The `(url, category)` projection used by the fallback-equivalence
property. -/
def pairsOf (l : List FeedRecord) : List (Str × Str) :=
  l.map fun r => (r.url, r.category)

/-- Interleaving of `n + 1` gap texts with `n` match texts; used to
state that the fallback matches are disjoint segments of the input in
left-to-right order. -/
def interleave : List Str → List Str → Str
  | [p], [] => p
  | p :: ps, m :: ms => p ++ (m ++ interleave ps ms)
  | _, _ => []

/-- XML serialization of one attribute value as `ElementTree` would
write it. -/
def escAttrChar (c : Char) : Str :=
  if c = '&' then "&amp;".toList
  else if c = '<' then "&lt;".toList
  else if c = '>' then "&gt;".toList
  else if c = quoteC then "&quot;".toList
  else [c]

def escAttr (v : Str) : Str := v.flatMap escAttrChar

/-- Serialized attribute list: a space, the name, `="`, the escaped
value and a closing quote, for each attribute in order. -/
def attrsText : List (Str × Str) → Str
  | [] => []
  | (n, v) :: r => ' ' :: (n ++ '=' :: quoteC :: (escAttr v ++ quoteC :: attrsText r))

mutual
/-- Canonical serialization of an element: open tag with its attributes,
the children, and a closing tag.  A well-formed document in the
fallback-equivalence claim is modelled as the serialization of a
tree. -/
def serializeElem : XmlElem → Str
  | XmlElem.mk t a cs =>
    '<' :: (t ++ attrsText a ++ '>' :: (serializeForest cs ++ '<' :: '/' :: (t ++ ['>'])))

def serializeForest : List XmlElem → Str
  | [] => []
  | e :: es => serializeElem e ++ serializeForest es
end

def lowerAlpha (c : Char) : Bool := 97 ≤ c.toNat && c.toNat ≤ 122

def alphaC (c : Char) : Bool := lowerAlpha c || (65 ≤ c.toNat && c.toNat ≤ 90)

/-- Attribute values that serialize to themselves and cannot take part
in a spurious `xmlUrl="` occurrence. -/
def cleanValChar (c : Char) : Bool :=
  c ≠ '&' && c ≠ '<' && c ≠ '>' && c ≠ quoteC && c ≠ '='

/-- A well-behaved attribute: alphabetic name that is either exactly
`xmlUrl` or does not contain `xmlUrl` up to case, and a value made of
well-behaved characters. -/
def cleanAttr (a : Str × Str) : Bool :=
  a.1 ≠ [] && a.1.all alphaC &&
  (a.1 = xmlUrlT || !(hasOccCi xmlUrlT a.1)) &&
  a.2.all cleanValChar

mutual
/-- A well-behaved tree: non-empty lowercase alphabetic tag names and
well-behaved attributes throughout. -/
def cleanElem : XmlElem → Bool
  | XmlElem.mk t a cs =>
    t ≠ [] && t.all lowerAlpha && a.all cleanAttr && cleanForest cs

def cleanForest : List XmlElem → Bool
  | [] => true
  | e :: es => cleanElem e && cleanForest es
end

mutual
/-- The `xmlUrl` captures the fallback scan extracts from the
serialization of an element, in document order. -/
def elemUrls : XmlElem → List Str
  | XmlElem.mk t a cs =>
    (match attrGet xmlUrlT a with
     | some u => if t = outlineT then [u] else []
     | none => []) ++ forestUrls cs

def forestUrls : List XmlElem → List Str
  | [] => []
  | e :: es => elemUrls e ++ forestUrls es
end

/-- Every ampersand of the text starts a recognized entity reference.
This is the state the ampersand-escaping substitution establishes. -/
def ampOk : Str → Bool
  | [] => true
  | c :: cs => (if c = '&' then entityTail cs else true) && ampOk cs

/-- Prepend consumed text to a `findUrl`-style result. -/
def prependCon (p : Str) : Option (Str × Str × Str) → Option (Str × Str × Str) :=
  Option.map fun r => (p ++ r.1, r.2.1, r.2.2)

/-- A well-behaved single-character substitution: the replaced character
is outside ASCII and the replacement text is ASCII and ampersand-free.
Every entry of `smartSubsts` satisfies this. -/
def goodSub (p : Char × Str) : Bool :=
  128 ≤ p.1.toNat && p.2.all fun c => c ≠ '&' && c.toNat < 128

/-! ## Character-level facts -/

theorem charOfNat_toNat {n : Nat} (h : n < 128) : (Char.ofNat n).toNat = n := by
  unfold Char.ofNat
  split
  · rfl
  · next hn => exact absurd (Or.inl (by omega)) hn

theorem char_eq_of_toNat {c d : Char} (h : c.toNat = d.toNat) : c = d :=
  Char.eq_of_val_eq (UInt32.eq_of_toBitVec_eq (BitVec.eq_of_toNat_eq h))

theorem toLower_self_of_not_upper {c : Char} (h : ¬ (65 ≤ c.toNat ∧ c.toNat ≤ 90)) :
    c.toLower = c := by
  have h2 : ¬ (c.toNat ≥ 65 ∧ c.toNat ≤ 90) := h
  simp only [Char.toLower, h2, if_false]

theorem toLower_dichotomy (c : Char) :
    c.toLower = c ∨ (97 ≤ c.toLower.toNat ∧ c.toLower.toNat ≤ 122) := by
  by_cases h : c.toNat ≥ 65 ∧ c.toNat ≤ 90
  · right
    have h1 : (Char.ofNat (c.toNat + 32)).toNat = c.toNat + 32 := charOfNat_toNat (by omega)
    simp only [Char.toLower, h, and_self, if_true]
    rw [h1]
    omega
  · left
    exact toLower_self_of_not_upper h

theorem toLower_eq_nonletter {c d : Char} (hd : ¬ (97 ≤ d.toNat ∧ d.toNat ≤ 122))
    (h : c.toLower = d) : c = d := by
  rcases toLower_dichotomy c with h1 | h1
  · rw [← h1, h]
  · rw [h] at h1
    exact absurd h1 hd

theorem ciChar_eq_nonletter {d c : Char} (hd1 : d.toLower = d)
    (hd2 : ¬ (97 ≤ d.toNat ∧ d.toNat ≤ 122)) (h : ciChar d c = true) : c = d := by
  simp only [ciChar, decide_eq_true_eq] at h
  rw [hd1] at h
  exact toLower_eq_nonletter hd2 h.symm

theorem ciChar_lower_eq {d c : Char} (hd : d.toLower = d) (hc : lowerAlpha c = true)
    (h : ciChar d c = true) : c = d := by
  simp only [ciChar, decide_eq_true_eq] at h
  simp only [lowerAlpha, Bool.and_eq_true, decide_eq_true_eq] at hc
  have hcl : c.toLower = c := toLower_self_of_not_upper (by omega)
  rw [hd, hcl] at h
  exact h.symm

theorem ciChar_self (c : Char) : ciChar c c = true := by
  simp [ciChar]

theorem isDigitC_facts {c : Char} (h : isDigitC c = true) : c ≠ '&' ∧ c.toNat < 128 := by
  simp only [isDigitC, Bool.and_eq_true, decide_eq_true_eq] at h
  constructor
  · rintro rfl
    simp only [show ('&').toNat = 38 from rfl] at h
    omega
  · omega

theorem isHexC_facts {c : Char} (h : isHexC c = true) : c ≠ '&' ∧ c.toNat < 128 := by
  simp only [isHexC, isDigitC, Bool.or_eq_true, Bool.and_eq_true, decide_eq_true_eq] at h
  constructor
  · rintro rfl
    simp only [show ('&').toNat = 38 from rfl] at h
    omega
  · omega

/-! ## Prefix and substring tests -/

theorem isPref_append_self (p s : Str) : isPref p (p ++ s) = true := by
  induction p with
  | nil => simp [isPref]
  | cons c cs ih => simp [isPref, ih]

theorem isPref_exists {p s : Str} (h : isPref p s = true) : ∃ r, s = p ++ r := by
  induction p generalizing s with
  | nil => exact ⟨s, rfl⟩
  | cons c cs ih =>
    cases s with
    | nil => simp [isPref] at h
    | cons d ds =>
      by_cases hc : c = d
      · subst hc
        simp only [isPref, if_pos rfl] at h
        obtain ⟨r, hr⟩ := ih h
        exact ⟨r, by simp [hr]⟩
      · simp [isPref, hc] at h

theorem ciPrefix_append_self (p s : Str) : ciPrefix p (p ++ s) = true := by
  induction p with
  | nil => simp [ciPrefix]
  | cons c cs ih => simp [ciPrefix, ciChar_self, ih]

theorem ciPrefix_length_le {p s : Str} (h : ciPrefix p s = true) : p.length ≤ s.length := by
  induction p generalizing s with
  | nil => simp
  | cons c cs ih =>
    cases s with
    | nil => simp [ciPrefix] at h
    | cons d ds =>
      by_cases hc : ciChar c d
      · simp only [ciPrefix, if_pos hc] at h
        have := ih h
        simp only [List.length_cons]
        omega
      · simp [ciPrefix, hc] at h

theorem hasOcc_cons (pat : Str) (c : Char) (cs : Str) :
    hasOcc pat (c :: cs) = (isPref pat (c :: cs) || hasOcc pat cs) := rfl

theorem takeWhile_all_append {p : Char → Bool} {d : Str} (hd : ∀ c ∈ d, p c = true)
    {c : Char} (hc : p c = false) (x : Str) :
    (d ++ c :: x).takeWhile p = d ∧ (d ++ c :: x).dropWhile p = c :: x := by
  induction d with
  | nil => simp [List.takeWhile, List.dropWhile, hc]
  | cons a as ih =>
    have ha : p a = true := hd a (by simp)
    have ih2 := ih fun b hb => hd b (by simp [hb])
    simp [List.takeWhile, List.dropWhile, ha, ih2.1, ih2.2]

/-! ## Entity-tail decomposition -/

theorem entityTail_of_isPref {w : Str} (hw : w = "amp;".toList ∨ w = "lt;".toList ∨
    w = "gt;".toList ∨ w = "quot;".toList ∨ w = "apos;".toList) (x : Str) :
    entityTail (w ++ x) = true := by
  rcases hw with rfl | rfl | rfl | rfl | rfl <;>
    simp [entityTail, isPref]

theorem entityTail_num (d : Str) (hd : d ≠ []) (hall : ∀ c ∈ d, isDigitC c = true) (x : Str) :
    entityTail ('#' :: (d ++ ';' :: x)) = true := by
  have hsplit := takeWhile_all_append hall (c := ';') (by decide) x
  have hnum : numRef ('#' :: (d ++ ';' :: x)) = true := by
    simp [numRef, digRun, hsplit.1, hsplit.2, hd]
  simp [entityTail, hnum]

theorem entityTail_hex (d : Str) (hd : d ≠ []) (hall : ∀ c ∈ d, isHexC c = true) (x : Str) :
    entityTail ('#' :: 'x' :: (d ++ ';' :: x)) = true := by
  have hsplit := takeWhile_all_append hall (c := ';') (by decide) x
  have hhex : hexRef ('#' :: 'x' :: (d ++ ';' :: x)) = true := by
    simp [hexRef, hexRun, hsplit.1, hsplit.2, hd]
  simp [entityTail, hhex]

/-- Any recognized entity tail has a prefix made of ampersand-free ASCII
characters that forces the tail to be recognized whatever follows it. -/
theorem entityTail_decomp {cs : Str} (h : entityTail cs = true) :
    ∃ p r, cs = p ++ r ∧ (∀ c ∈ p, c ≠ '&' ∧ c.toNat < 128) ∧
      ∀ x, entityTail (p ++ x) = true := by
  simp only [entityTail, Bool.or_eq_true] at h
  rcases h with ((((((h | h) | h) | h) | h) | h) | h)
  · obtain ⟨r, hr⟩ := isPref_exists h
    exact ⟨"amp;".toList, r, hr, by decide, entityTail_of_isPref (by simp)⟩
  · obtain ⟨r, hr⟩ := isPref_exists h
    exact ⟨"lt;".toList, r, hr, by decide, entityTail_of_isPref (by simp)⟩
  · obtain ⟨r, hr⟩ := isPref_exists h
    exact ⟨"gt;".toList, r, hr, by decide, entityTail_of_isPref (by simp)⟩
  · obtain ⟨r, hr⟩ := isPref_exists h
    exact ⟨"quot;".toList, r, hr, by decide, entityTail_of_isPref (by simp)⟩
  · obtain ⟨r, hr⟩ := isPref_exists h
    exact ⟨"apos;".toList, r, hr, by decide, entityTail_of_isPref (by simp)⟩
  · -- decimal numeric reference
    obtain ⟨r, rfl, h1, h2⟩ : ∃ r, cs = '#' :: r ∧ r.takeWhile isDigitC ≠ [] ∧
        ∃ r2, r.dropWhile isDigitC = ';' :: r2 := by
      cases cs with
      | nil => simp [numRef] at h
      | cons c0 r =>
        simp only [numRef, Bool.and_eq_true, decide_eq_true_eq] at h
        obtain ⟨rfl, hrun⟩ := h
        simp only [digRun, Bool.and_eq_true, ne_eq, decide_eq_true_eq] at hrun
        obtain ⟨h1, h2⟩ := hrun
        refine ⟨r, rfl, by simpa using h1, ?_⟩
        revert h2
        cases r.dropWhile isDigitC with
        | nil => intro h2; simp at h2
        | cons c1 r2 =>
          intro h2
          by_cases hc1 : c1 = ';'
          · exact ⟨r2, by rw [hc1]⟩
          · simp [hc1] at h2
    obtain ⟨r2, hw⟩ := h2
    have hsplit := List.takeWhile_append_dropWhile (p := isDigitC) (l := r)
    set d := r.takeWhile isDigitC with hd
    have hr : r = d ++ ';' :: r2 := by rw [hd, ← hw, hsplit]
    have hall : ∀ c ∈ d, isDigitC c = true := fun c hc =>
      List.mem_takeWhile_imp (hd ▸ hc)
    refine ⟨'#' :: (d ++ [';']), r2, by simp [hr], ?_, ?_⟩
    · intro c hc
      simp only [List.mem_cons, List.mem_append, List.mem_singleton] at hc
      rcases hc with rfl | hc | rfl | h0
      · exact ⟨by decide, by decide⟩
      · exact isDigitC_facts (hall c hc)
      · exact ⟨by decide, by decide⟩
      · exact absurd h0 (by simp)
    · intro x
      have := entityTail_num d h1 hall x
      simpa using this
  · -- hexadecimal numeric reference
    obtain ⟨r, rfl, h1, h2⟩ : ∃ r, cs = '#' :: 'x' :: r ∧ r.takeWhile isHexC ≠ [] ∧
        ∃ r2, r.dropWhile isHexC = ';' :: r2 := by
      match cs with
      | [] => simp [hexRef] at h
      | [c0] => simp [hexRef] at h
      | c0 :: c1 :: r =>
        simp only [hexRef, Bool.and_eq_true, decide_eq_true_eq] at h
        obtain ⟨⟨rfl, rfl⟩, hrun⟩ := h
        simp only [hexRun, Bool.and_eq_true, ne_eq, decide_eq_true_eq] at hrun
        obtain ⟨h1, h2⟩ := hrun
        refine ⟨r, rfl, by simpa using h1, ?_⟩
        revert h2
        cases r.dropWhile isHexC with
        | nil => intro h2; simp at h2
        | cons c2 r2 =>
          intro h2
          by_cases hc2 : c2 = ';'
          · exact ⟨r2, by rw [hc2]⟩
          · simp [hc2] at h2
    obtain ⟨r2, hw⟩ := h2
    have hsplit := List.takeWhile_append_dropWhile (p := isHexC) (l := r)
    set d := r.takeWhile isHexC with hd
    have hr : r = d ++ ';' :: r2 := by rw [hd, ← hw, hsplit]
    have hall : ∀ c ∈ d, isHexC c = true := fun c hc =>
      List.mem_takeWhile_imp (hd ▸ hc)
    refine ⟨'#' :: 'x' :: (d ++ [';']), r2, by simp [hr], ?_, ?_⟩
    · intro c hc
      simp only [List.mem_cons, List.mem_append, List.mem_singleton] at hc
      rcases hc with rfl | rfl | hc | rfl | h0
      · exact ⟨by decide, by decide⟩
      · exact ⟨by decide, by decide⟩
      · exact isHexC_facts (hall c hc)
      · exact ⟨by decide, by decide⟩
      · exact absurd h0 (by simp)
    · intro x
      have := entityTail_hex d h1 hall x
      simpa using this

/-! ## Invariants of the ampersand substitution -/

theorem escapeAmps_cons_other {c : Char} (hc : c ≠ '&') (cs : Str) :
    escapeAmps (c :: cs) = c :: escapeAmps cs := by
  simp [escapeAmps, hc]

theorem escapeAmps_append_clean {p : Str} (hp : ∀ c ∈ p, c ≠ '&') (s : Str) :
    escapeAmps (p ++ s) = p ++ escapeAmps s := by
  induction p with
  | nil => simp
  | cons c cs ih =>
    have hc := hp c (by simp)
    have ih2 := ih fun b hb => hp b (by simp [hb])
    simp only [List.cons_append]
    rw [escapeAmps_cons_other hc, ih2]

theorem entityTail_escapeAmps {cs : Str} (h : entityTail cs = true) :
    entityTail (escapeAmps cs) = true := by
  obtain ⟨p, r, rfl, hchars, hforce⟩ := entityTail_decomp h
  rw [escapeAmps_append_clean fun c hc => (hchars c hc).1]
  exact hforce _

theorem ampOk_cons (c : Char) (cs : Str) :
    ampOk (c :: cs) = ((if c = '&' then entityTail cs else true) && ampOk cs) := rfl

theorem ampOk_escapeAmps (s : Str) : ampOk (escapeAmps s) = true := by
  induction s with
  | nil => rfl
  | cons c cs ih =>
    by_cases hc : c = '&'
    · subst hc
      by_cases ht : entityTail cs = true
      · rw [show escapeAmps ('&' :: cs) = '&' :: escapeAmps cs by simp [escapeAmps, ht]]
        rw [ampOk_cons]
        simp [entityTail_escapeAmps ht, ih]
      · have ht2 : entityTail cs = false := by simpa using ht
        rw [show escapeAmps ('&' :: cs) = '&' :: 'a' :: 'm' :: 'p' :: ';' :: escapeAmps cs by
          simp [escapeAmps, ht2]]
        repeat rw [ampOk_cons]
        simp [entityTail, isPref, ih]
    · rw [escapeAmps_cons_other hc, ampOk_cons]
      simp [hc, ih]

theorem escapeAmps_id_of_ampOk {s : Str} (h : ampOk s = true) : escapeAmps s = s := by
  induction s with
  | nil => rfl
  | cons c cs ih =>
    rw [ampOk_cons] at h
    simp only [Bool.and_eq_true] at h
    obtain ⟨h1, h2⟩ := h
    by_cases hc : c = '&'
    · subst hc
      simp only [if_pos rfl] at h1
      have h1b : entityTail cs = true := by simpa using h1
      rw [show escapeAmps ('&' :: cs) = '&' :: escapeAmps cs from by simp [escapeAmps, h1b],
        ih h2]
    · rw [escapeAmps_cons_other hc, ih h2]

/-! ## Replacement lemmas -/

theorem replaceListF_id_of_no_occ {pat rep : Str} :
    ∀ (f : Nat) (s : Str), hasOcc pat s = false → replaceListF pat rep f s = s := by
  intro f
  induction f with
  | zero => intro s _; rfl
  | succ f ih =>
    intro s h
    cases s with
    | nil => rfl
    | cons c cs =>
      rw [hasOcc_cons] at h
      simp only [Bool.or_eq_false_iff] at h
      obtain ⟨h1, h2⟩ := h
      rw [replaceListF, if_neg]
      · rw [ih cs h2]
      · rintro ⟨_, hpref⟩
        rw [h1] at hpref
        exact Bool.false_ne_true hpref

theorem replaceList_id_of_no_occ {pat rep s : Str} (h : hasOcc pat s = false) :
    replaceList pat rep s = s :=
  replaceListF_id_of_no_occ s.length s h

theorem hasOcc_nbsp_of_ampOk {s : Str} (h : ampOk s = true) :
    hasOcc "&nbsp;".toList s = false := by
  induction s with
  | nil => rfl
  | cons c cs ih =>
    rw [ampOk_cons] at h
    simp only [Bool.and_eq_true] at h
    obtain ⟨h1, h2⟩ := h
    rw [hasOcc_cons, ih h2]
    simp only [Bool.or_false]
    by_cases hc : c = '&'
    · subst hc
      simp only [if_pos rfl] at h1
      cases hp : isPref "&nbsp;".toList ('&' :: cs)
      · rfl
      · exfalso
        obtain ⟨r, hr⟩ := isPref_exists hp
        have hcs : cs = "nbsp;".toList ++ r := by
          simpa using hr
        rw [hcs] at h1
        simp [entityTail, isPref, numRef, hexRef] at h1
    · have hne : ('&' : Char) ≠ c := fun heq => hc heq.symm
      simp [isPref, hne]

theorem subst1_cons (a : Char) (rep : Str) (c : Char) (cs : Str) :
    subst1 a rep (c :: cs) = (if c = a then rep else [c]) ++ subst1 a rep cs := by
  simp [subst1]

theorem subst1_append (a : Char) (rep p s : Str) :
    subst1 a rep (p ++ s) = subst1 a rep p ++ subst1 a rep s := by
  simp [subst1]

theorem subst1_id_of_clean {a : Char} {rep s : Str} (h : a ∉ s) : subst1 a rep s = s := by
  induction s with
  | nil => rfl
  | cons c cs ih =>
    have hc : c ≠ a := fun heq => h (heq ▸ List.mem_cons_self c cs)
    rw [subst1_cons, if_neg hc, ih fun hm => h (List.mem_cons_of_mem c hm)]
    rfl

theorem replaceListF_singleton (a : Char) (rep : Str) :
    ∀ (f : Nat) (s : Str), s.length ≤ f → replaceListF [a] rep f s = subst1 a rep s := by
  intro f
  induction f with
  | zero =>
    intro s hs
    cases s with
    | nil => rfl
    | cons c cs => simp at hs
  | succ f ih =>
    intro s hs
    cases s with
    | nil => rfl
    | cons c cs =>
      have hlen : cs.length ≤ f := by
        simp only [List.length_cons] at hs
        omega
      by_cases hc : a = c
      · rw [replaceListF, if_pos ⟨by simp, by simp [isPref, hc]⟩]
        simp only [List.length_singleton, Nat.sub_self, List.drop_zero]
        rw [ih cs hlen, subst1_cons, if_pos hc.symm]
      · rw [replaceListF, if_neg]
        · rw [ih cs hlen, subst1_cons, if_neg fun heq => hc heq.symm]
          rfl
        · rintro ⟨_, hpref⟩
          simp [isPref, hc] at hpref

theorem replaceList_singleton (a : Char) (rep s : Str) :
    replaceList [a] rep s = subst1 a rep s :=
  replaceListF_singleton a rep s.length s le_rfl

theorem ampOk_append_no_amp {rep x : Str} (hrep : ∀ c ∈ rep, c ≠ '&')
    (hx : ampOk x = true) : ampOk (rep ++ x) = true := by
  induction rep with
  | nil => simpa using hx
  | cons c cs ih =>
    have hc := hrep c (by simp)
    have ih2 := ih fun b hb => hrep b (by simp [hb])
    simp only [List.cons_append]
    rw [ampOk_cons]
    simp [hc, ih2]

theorem ampOk_subst1 {a : Char} {rep : Str} (ha : 128 ≤ a.toNat)
    (hrep : ∀ c ∈ rep, c ≠ '&') {s : Str} (h : ampOk s = true) :
    ampOk (subst1 a rep s) = true := by
  induction s with
  | nil => rfl
  | cons c cs ih =>
    rw [ampOk_cons] at h
    simp only [Bool.and_eq_true] at h
    obtain ⟨h1, h2⟩ := h
    by_cases hc : c = '&'
    · subst hc
      simp only [if_pos rfl] at h1
      have h1b : entityTail cs = true := by simpa using h1
      have hca : ('&' : Char) ≠ a := by
        intro heq
        rw [← heq] at ha
        simp only [show ('&').toNat = 38 from rfl] at ha
        omega
      obtain ⟨p, r, rfl, hchars, hforce⟩ := entityTail_decomp h1b
      have hsub : subst1 a rep (p ++ r) = p ++ subst1 a rep r := by
        rw [subst1_append, subst1_id_of_clean (a := a) (fun hm => by
          have := hchars a hm
          omega)]
      have htail := ih h2
      rw [hsub] at htail
      rw [subst1_cons, if_neg hca]
      simp only [List.singleton_append]
      rw [hsub, ampOk_cons]
      simp [hforce (subst1 a rep r), htail]
    · by_cases hca : c = a
      · subst hca
        rw [subst1_cons, if_pos rfl]
        exact ampOk_append_no_amp hrep (ih h2)
      · rw [subst1_cons, if_neg hca]
        simp only [List.singleton_append]
        rw [ampOk_cons]
        simp [hc, ih h2]

theorem not_mem_subst1_self {a : Char} {rep : Str} (h : a ∉ rep) (s : Str) :
    a ∉ subst1 a rep s := by
  induction s with
  | nil => simp [subst1]
  | cons c cs ih =>
    rw [subst1_cons]
    intro hm
    rcases List.mem_append.1 hm with hm1 | hm1
    · by_cases hc : c = a
      · rw [if_pos hc] at hm1
        exact h hm1
      · rw [if_neg hc] at hm1
        simp only [List.mem_singleton] at hm1
        exact hc hm1.symm
    · exact ih hm1

theorem not_mem_subst1_of {a b : Char} {rep s : Str} (hs : a ∉ s) (hrep : a ∉ rep) :
    a ∉ subst1 b rep s := by
  induction s with
  | nil => simp [subst1]
  | cons c cs ih =>
    have hc : a ≠ c := fun heq => hs (heq ▸ List.mem_cons_self c cs)
    have hcs : a ∉ cs := fun hm => hs (List.mem_cons_of_mem c hm)
    rw [subst1_cons]
    intro hm
    rcases List.mem_append.1 hm with hm1 | hm1
    · by_cases hcb : c = b
      · rw [if_pos hcb] at hm1
        exact hrep hm1
      · rw [if_neg hcb] at hm1
        exact hc (by simpa using hm1)
    · exact ih hcs hm1

/-! ## The smart-typography fold -/

theorem applySubsts_cons (p : Char × Str) (l : List (Char × Str)) (s : Str) :
    applySubsts (p :: l) s = applySubsts l (replaceList [p.1] p.2 s) := rfl

theorem ampOk_applySubsts :
    ∀ (l : List (Char × Str)) (s : Str), (∀ p ∈ l, goodSub p = true) →
      ampOk s = true → ampOk (applySubsts l s) = true := by
  intro l
  induction l with
  | nil => intro s _ h; exact h
  | cons p rest ih =>
    intro s hg h
    have hp := hg p (by simp)
    simp only [goodSub, Bool.and_eq_true, List.all_eq_true, decide_eq_true_eq] at hp
    rw [applySubsts_cons, replaceList_singleton]
    exact ih _ (fun q hq => hg q (by simp [hq]))
      (ampOk_subst1 hp.1 (fun c hc => by
        have := hp.2 c hc
        simp only [Bool.and_eq_true, decide_eq_true_eq] at this
        exact this.1) h)

theorem not_mem_applySubsts :
    ∀ (l : List (Char × Str)) (s : Str) (a : Char), 128 ≤ a.toNat →
      (∀ p ∈ l, goodSub p = true) → a ∉ s → a ∉ applySubsts l s := by
  intro l
  induction l with
  | nil => intro s a _ _ h; exact h
  | cons p rest ih =>
    intro s a ha hg hs
    have hp := hg p (by simp)
    simp only [goodSub, Bool.and_eq_true, List.all_eq_true, decide_eq_true_eq] at hp
    rw [applySubsts_cons, replaceList_singleton]
    refine ih _ a ha (fun q hq => hg q (by simp [hq])) ?_
    refine not_mem_subst1_of hs fun hm => ?_
    have := hp.2 a hm
    simp only [Bool.and_eq_true, decide_eq_true_eq] at this
    omega

theorem pattern_not_mem_applySubsts :
    ∀ (l : List (Char × Str)) (s : Str) (a : Char) (ρ : Str), (a, ρ) ∈ l →
      (∀ p ∈ l, goodSub p = true) → a ∉ applySubsts l s := by
  intro l
  induction l with
  | nil => intro s a ρ hm; simp at hm
  | cons p rest ih =>
    intro s a ρ hm hg
    have ha : 128 ≤ a.toNat := by
      have := hg (a, ρ) hm
      simp only [goodSub, Bool.and_eq_true, decide_eq_true_eq] at this
      exact this.1
    rcases List.mem_cons.1 hm with heq | hmem
    · rw [applySubsts_cons, replaceList_singleton]
      have hpe : p.1 = a := by rw [← heq]
      have hrep : a ∉ p.2 := by
        intro hmr
        have := hg p (by simp)
        simp only [goodSub, Bool.and_eq_true, List.all_eq_true, decide_eq_true_eq] at this
        have h2 := this.2 a hmr
        simp only [Bool.and_eq_true, decide_eq_true_eq] at h2
        omega
      rw [hpe]
      exact not_mem_applySubsts rest _ a ha (fun q hq => hg q (by simp [hq]))
        (not_mem_subst1_self hrep s)
    · rw [applySubsts_cons, replaceList_singleton]
      exact ih _ a ρ hmem fun q hq => hg q (by simp [hq])

theorem applySubsts_id :
    ∀ (l : List (Char × Str)) (s : Str), (∀ p ∈ l, p.1 ∉ s) → applySubsts l s = s := by
  intro l
  induction l with
  | nil => intro s _; rfl
  | cons p rest ih =>
    intro s h
    rw [applySubsts_cons, replaceList_singleton, subst1_id_of_clean (h p (by simp))]
    exact ih s fun q hq => h q (by simp [hq])

/-! ## Normalization facts -/

theorem fix_eq_substs (s : Str) :
    fix_xml_encoding s = applySubsts smartSubsts (escapeAmps s) := by
  unfold fix_xml_encoding
  rw [replaceList_id_of_no_occ (hasOcc_nbsp_of_ampOk (ampOk_escapeAmps s))]

theorem ampOk_fix (s : Str) : ampOk (fix_xml_encoding s) = true := by
  rw [fix_eq_substs]
  exact ampOk_applySubsts _ _ (by decide) (ampOk_escapeAmps s)

theorem smart_not_mem_fix {p : Char × Str} (hp : p ∈ smartSubsts) (s : Str) :
    p.1 ∉ fix_xml_encoding s := by
  rw [fix_eq_substs]
  exact pattern_not_mem_applySubsts _ _ p.1 p.2 (by simpa using hp) (by decide)

/-- C5: the normalization `fix_xml_encoding` is idempotent: applying the
composite of the ampersand-escaping substitution, the `&nbsp;`
replacement and the smart-typography replacements a second time changes
nothing. -/
theorem c5_normalization_idempotent (s : Str) :
    fix_xml_encoding (fix_xml_encoding s) = fix_xml_encoding s := by
  have hamp : ampOk (fix_xml_encoding s) = true := ampOk_fix s
  have hstep : fix_xml_encoding (fix_xml_encoding s) =
      applySubsts smartSubsts (replaceList "&nbsp;".toList [' ']
        (escapeAmps (fix_xml_encoding s))) := rfl
  rw [hstep, escapeAmps_id_of_ampOk hamp,
    replaceList_id_of_no_occ (hasOcc_nbsp_of_ampOk hamp), applySubsts_id]
  intro p hp
  exact smart_not_mem_fix hp s

/-- C6 (counterexample): on the input `&nbsp;` the normalization does
not put a space in place of the entity literal: the ampersand-escaping
step has already rewritten it to `&amp;nbsp;`, which the output
contains unchanged. -/
theorem c6_counterexample :
    fix_xml_encoding "&nbsp;".toList = "&amp;nbsp;".toList ∧
    fix_xml_encoding "&nbsp;".toList ≠ " ".toList := by
  constructor
  · decide
  · decide

/-- C6 (amended): the ampersand-escaping step rewrites every `&nbsp;`
occurrence to `&amp;nbsp;` first, so the dedicated `&nbsp;`-replacement
step of the normalization is a no-op on the escaped text and the output
keeps `&amp;nbsp;` where the input had `&nbsp;`, not a space. -/
theorem c6_amended :
    (∀ s : Str, replaceList "&nbsp;".toList [' '] (escapeAmps s) = escapeAmps s) ∧
    fix_xml_encoding "&nbsp;".toList = "&amp;nbsp;".toList := by
  constructor
  · intro s
    exact replaceList_id_of_no_occ (hasOcc_nbsp_of_ampOk (ampOk_escapeAmps s))
  · decide

/-! ## Scanner basics -/

theorem splitOnChar_eq {q : Char} :
    ∀ {s a b : Str}, splitOnChar q s = some (a, b) → s = a ++ q :: b ∧ q ∉ a := by
  intro s
  induction s with
  | nil => intro a b h; simp [splitOnChar] at h
  | cons c cs ih =>
    intro a b h
    by_cases hc : c = q
    · subst hc
      rw [splitOnChar, if_pos rfl] at h
      simp only [Option.some.injEq, Prod.mk.injEq] at h
      obtain ⟨h1, h2⟩ := h
      subst h1
      subst h2
      simp
    · rw [splitOnChar, if_neg hc] at h
      cases hs : splitOnChar q cs with
      | none => rw [hs] at h; simp at h
      | some p =>
        obtain ⟨a0, b0⟩ := p
        rw [hs] at h
        simp only [Option.some.injEq, Prod.mk.injEq] at h
        obtain ⟨h1, h2⟩ := h
        subst h2
        obtain ⟨hd, hnm⟩ := ih hs
        subst h1
        constructor
        · simp [hd]
        · simp only [List.mem_cons, not_or]
          exact ⟨fun heq => hc heq.symm, hnm⟩

theorem splitOnChar_append {q : Char} {u : Str} (hq : q ∉ u) (z : Str) :
    splitOnChar q (u ++ q :: z) = some (u, z) := by
  induction u with
  | nil => simp [splitOnChar]
  | cons c cs ih =>
    have hc : c ≠ q := fun heq => hq (heq ▸ List.mem_cons_self c cs)
    have hcs : q ∉ cs := fun hm => hq (List.mem_cons_of_mem c hm)
    simp only [List.cons_append]
    rw [splitOnChar, if_neg hc, ih hcs]

theorem findUrl_decomp :
    ∀ {t con u rem : Str}, findUrl t = some (con, u, rem) → t = con ++ rem ∧ con ≠ [] := by
  intro t
  induction t with
  | nil => intro con u rem h; simp [findUrl] at h
  | cons c cs ih =>
    intro con u rem h
    rw [findUrl] at h
    revert h
    split
    · next r hr =>
      intro h
      simp only [Option.some.injEq] at h
      subst h
      split at hr
      · next hci =>
        split at hr
        · next u1 after hsq =>
          split at hr
          · next mid rest hsg =>
            simp only [Option.some.injEq, Prod.mk.injEq] at hr
            obtain ⟨hcon, hu, hrem⟩ := hr
            obtain ⟨hq1, _⟩ := splitOnChar_eq hsq
            obtain ⟨hg1, _⟩ := splitOnChar_eq hsg
            constructor
            · have htd : c :: cs = List.take 8 (c :: cs) ++ List.drop 8 (c :: cs) :=
                (List.take_append_drop 8 (c :: cs)).symm
              rw [htd, hq1, hg1, ← hcon, ← hrem]
              simp
            · rw [← hcon]
              simp
          · simp at hr
        · simp at hr
      · simp at hr
    · next hr =>
      intro h
      by_cases hgt : c = '>'
      · rw [if_pos hgt] at h
        simp at h
      · rw [if_neg hgt] at h
        cases hfc : findUrl cs with
        | none => rw [hfc] at h; simp at h
        | some p =>
          obtain ⟨con1, u1, rem1⟩ := p
          rw [hfc] at h
          simp only [Option.some.injEq, Prod.mk.injEq] at h
          obtain ⟨hcon, hu, hrem⟩ := h
          obtain ⟨hdec, hne⟩ := ih hfc
          subst hcon
          subst hrem
          constructor
          · simp only [List.cons_append, List.cons.injEq, true_and]
            exact hdec
          · simp

theorem matchAt_nil : matchAt [] = none := rfl

theorem matchAt_decomp {s : Str} {m : FbMatch} (h : matchAt s = some m) :
    s = m.g0 ++ m.rest ∧ m.g0 ≠ [] := by
  unfold matchAt at h
  split at h
  · next hci =>
    split at h
    · simp at h
    · next c rest0 hd =>
      split at h
      · next hws =>
        split at h
        · next con u rem hfu =>
          simp only [Option.some.injEq] at h
          obtain ⟨hdec, hne⟩ := findUrl_decomp hfu
          subst h
          constructor
          · have htd : s = List.take 8 s ++ List.drop 8 s :=
              (List.take_append_drop 8 s).symm
            conv_lhs => rw [htd]
            rw [hdec]
            simp
          · simp only [ne_eq, List.append_eq_nil, not_and]
            intro _
            exact hne
        · simp at h
      · simp at h
  · simp at h

theorem matchAt_rest_lt {s : Str} {m : FbMatch} (h : matchAt s = some m) :
    m.rest.length < s.length := by
  obtain ⟨hdec, hne⟩ := matchAt_decomp h
  rw [hdec, List.length_append]
  cases hg : m.g0 with
  | nil => exact absurd hg hne
  | cons c cs => simp

theorem fbMatchesF_nil : ∀ g : Nat, fbMatchesF g [] = [] := by
  intro g
  cases g with
  | zero => rfl
  | succ g1 => rw [fbMatchesF, matchAt_nil]

theorem fbMatchesF_congr :
    ∀ (f g : Nat) (s : Str), s.length ≤ f → s.length ≤ g → fbMatchesF f s = fbMatchesF g s := by
  intro f
  induction f with
  | zero =>
    intro g s hf _
    have : s = [] := List.length_eq_zero.1 (Nat.le_zero.1 hf)
    subst this
    rw [fbMatchesF_nil, fbMatchesF_nil]
  | succ f ih =>
    intro g s hf hg
    cases s with
    | nil => rw [fbMatchesF_nil, fbMatchesF_nil]
    | cons c cs =>
      have hg1 : ∃ g1, g = g1 + 1 := by
        cases g with
        | zero => simp at hg
        | succ g1 => exact ⟨g1, rfl⟩
      obtain ⟨g1, rfl⟩ := hg1
      rw [fbMatchesF, fbMatchesF]
      cases hm : matchAt (c :: cs) with
      | some m =>
        have hlt := matchAt_rest_lt hm
        simp only [List.length_cons] at hf hg hlt
        show m :: fbMatchesF f m.rest = m :: fbMatchesF g1 m.rest
        rw [ih g1 m.rest (by omega) (by omega)]
      | none =>
        simp only [List.length_cons] at hf hg
        show fbMatchesF f cs = fbMatchesF g1 cs
        exact ih g1 cs (by omega) (by omega)

theorem fbMatchesF_eq {f : Nat} {s : Str} (h : s.length ≤ f) :
    fbMatchesF f s = fbMatches s :=
  fbMatchesF_congr f s.length s h le_rfl

theorem fbMatches_nil : fbMatches [] = [] := rfl

theorem fbMatches_match {s : Str} {m : FbMatch} (h : matchAt s = some m) :
    fbMatches s = m :: fbMatches m.rest := by
  cases s with
  | nil => rw [matchAt_nil] at h; exact absurd h (by simp)
  | cons c cs =>
    have hlt := matchAt_rest_lt h
    simp only [List.length_cons] at hlt
    show fbMatchesF (cs.length + 1) (c :: cs) = _
    rw [fbMatchesF, h]
    show m :: fbMatchesF cs.length m.rest = m :: fbMatches m.rest
    rw [fbMatchesF_eq (by omega)]

theorem fbMatches_skip {c : Char} {cs : Str} (h : matchAt (c :: cs) = none) :
    fbMatches (c :: cs) = fbMatches cs := by
  show fbMatchesF (cs.length + 1) (c :: cs) = _
  rw [fbMatchesF, h]
  show fbMatchesF cs.length cs = fbMatches cs
  exact fbMatchesF_eq le_rfl

/-! ## Record-former facts -/

theorem recordOf_fields {cat : Str} {e : XmlElem} {r : FeedRecord}
    (h : recordOf cat e = some r) :
    attrGet xmlUrlT e.attrs = some r.url ∧ r.url ≠ [] ∧ r.category = cat ∧
    r.type = (attrGet typeT e.attrs).getD rssT ∧
    r.title = (let t0 : Str :=
        match attrGet textT e.attrs with
        | some v => if v = [] then (attrGet titleT e.attrs).getD [] else v
        | none => (attrGet titleT e.attrs).getD []
      if t0 = [] then [] else htmlUnescape t0) := by
  unfold recordOf at h
  split at h
  · simp at h
  · next u hu =>
    by_cases he : u = []
    · rw [if_pos he] at h
      simp at h
    · rw [if_neg he] at h
      simp only [Option.some.injEq] at h
      subst h
      exact ⟨hu, he, rfl, rfl, rfl⟩

theorem recordOf_none_of_no_url {cat : Str} {e : XmlElem}
    (h : attrGet xmlUrlT e.attrs = none ∨ attrGet xmlUrlT e.attrs = some []) :
    recordOf cat e = none := by
  unfold recordOf
  rcases h with h | h
  · rw [h]
  · rw [h]
    simp

theorem fbRecordOf_fields {cat : Str} {m : FbMatch} {r : FeedRecord}
    (h : fbRecordOf cat m = some r) :
    r.url = m.url ∧ m.url ≠ [] ∧ r.category = cat ∧
    r.type = (match searchAttr typeT m.g0 with
              | some v => v
              | none => rssT) ∧
    r.title = (let t1 : Str := (searchAttr textT m.g0).getD []
      let t2 : Str := if t1 = [] then (searchAttr titleT m.g0).getD [] else t1
      if t2 = [] then [] else htmlUnescape t2) := by
  unfold fbRecordOf at h
  by_cases he : m.url = []
  · rw [if_pos he] at h
    simp at h
  · rw [if_neg he] at h
    simp only [Option.some.injEq] at h
    subst h
    exact ⟨rfl, he, rfl, rfl, rfl⟩

theorem fbRecordOf_none {cat : Str} {m : FbMatch} (h : m.url = []) :
    fbRecordOf cat m = none := by
  unfold fbRecordOf
  rw [if_pos h]

/-- C2: every record emitted by either path has a non-empty `url`; an
outline with no `xmlUrl` attribute or an empty one yields no record in
the primary walk, and a fallback match with an empty capture yields no
record either. -/
theorem c2_url_required :
    (∀ (root : XmlElem) (cat : Str) (r : FeedRecord),
      r ∈ primaryRecords root cat → r.url ≠ []) ∧
    (∀ (s cat : Str) (r : FeedRecord), r ∈ fbRecords s cat → r.url ≠ []) ∧
    (∀ (cat : Str) (e : XmlElem),
      attrGet xmlUrlT e.attrs = none ∨ attrGet xmlUrlT e.attrs = some [] →
      recordOf cat e = none) ∧
    (∀ (cat : Str) (m : FbMatch), m.url = [] → fbRecordOf cat m = none) := by
  refine ⟨?_, ?_, ?_, ?_⟩
  · intro root cat r hr
    obtain ⟨e, _, hrec⟩ := List.mem_filterMap.1 hr
    exact (recordOf_fields hrec).2.1
  · intro s cat r hr
    obtain ⟨m, _, hrec⟩ := List.mem_filterMap.1 hr
    obtain ⟨hu, hne, _⟩ := fbRecordOf_fields hrec
    rw [hu]
    exact hne
  · intro cat e h
    exact recordOf_none_of_no_url h
  · intro cat m h
    exact fbRecordOf_none h

/-- C2 witness: the scenario-1 record extracted by the primary walk has
a non-empty url. -/
theorem c2_url_required_witness :
    (⟨"Tech".toList, [], "http://a.com/rss".toList, "rss".toList,
      "news".toList⟩ : FeedRecord).url ≠ [] :=
  c2_url_required.1
    (XmlElem.mk "opml".toList []
      [XmlElem.mk "body".toList []
        [XmlElem.mk "outline".toList
          [("text".toList, "Tech".toList), ("xmlUrl".toList, "http://a.com/rss".toList)] []]])
    "news".toList _ (by decide)

/-- C3: no exception escapes the document-level extraction: for every
behaviour of the file reads, the parser and the traversal,
`parse_opml_file` returns an ordinary (possibly empty) record list. -/
theorem c3_no_exception_escapes (env : DocEnv) (cat : Str) :
    ∃ feeds : List FeedRecord, parse_opml_file env cat = Except.ok feeds := by
  cases h : docBody env cat with
  | ok feeds => exact ⟨feeds, by simp [parse_opml_file, h]⟩
  | error p =>
    obtain ⟨e, feeds⟩ := p
    cases e with
    | parseErr =>
      exact ⟨feeds ++ parse_opml_file_fallback env cat, by simp [parse_opml_file, h]⟩
    | otherErr => exact ⟨feeds, by simp [parse_opml_file, h]⟩

/-- C10: in both paths the `rss` default is used only when the `type`
attribute is entirely absent; a present-but-empty `type` attribute is
emitted verbatim as the empty string. -/
theorem c10_type_default :
    (∀ (cat : Str) (e : XmlElem) (r : FeedRecord) (v : Str), recordOf cat e = some r →
      attrGet typeT e.attrs = some v → r.type = v) ∧
    (∀ (cat : Str) (e : XmlElem) (r : FeedRecord), recordOf cat e = some r →
      attrGet typeT e.attrs = none → r.type = rssT) ∧
    (∀ (cat : Str) (m : FbMatch) (r : FeedRecord) (v : Str), fbRecordOf cat m = some r →
      searchAttr typeT m.g0 = some v → r.type = v) ∧
    (∀ (cat : Str) (m : FbMatch) (r : FeedRecord), fbRecordOf cat m = some r →
      searchAttr typeT m.g0 = none → r.type = rssT) := by
  refine ⟨?_, ?_, ?_, ?_⟩
  · intro cat e r v h hv
    rw [(recordOf_fields h).2.2.2.1, hv]
    rfl
  · intro cat e r h hv
    rw [(recordOf_fields h).2.2.2.1, hv]
    rfl
  · intro cat m r v h hv
    rw [(fbRecordOf_fields h).2.2.2.1, hv]
  · intro cat m r h hv
    rw [(fbRecordOf_fields h).2.2.2.1, hv]

/-- C10 witness: an outline with an empty `type` attribute yields the
empty type, not `rss`, in both paths. -/
theorem c10_type_default_witness :
    (⟨"T".toList, [], "u".toList, [], "c".toList⟩ : FeedRecord).type = [] ∧
    (⟨"T".toList, [], "u".toList, [], "c".toList⟩ : FeedRecord).type = [] := by
  constructor
  · exact c10_type_default.1 "c".toList
      (XmlElem.mk "outline".toList
        [("text".toList, "T".toList), ("xmlUrl".toList, "u".toList), ("type".toList, [])] [])
      _ [] (by decide) (by decide)
  · exact c10_type_default.2.2.1 "c".toList
      ⟨"<outline text=\"T\" xmlUrl=\"u\" type=\"\">".toList, "u".toList, []⟩
      _ [] (by decide) (by decide)

/-- C8: in both paths the emitted title is the (entity-unescaped) `text`
attribute when that attribute is present and non-empty, otherwise the
`title` attribute when present, otherwise the empty string; in
particular the scenario with `text=""` and `title="Fallback Name"`
yields the title `Fallback Name` in both paths. -/
theorem c8_title_precedence :
    (∀ (cat : Str) (e : XmlElem) (r : FeedRecord), recordOf cat e = some r →
      r.title =
        (let sel : Str :=
          match attrGet textT e.attrs with
          | some v => if v ≠ [] then v else
              (match attrGet titleT e.attrs with
               | some w => w
               | none => [])
          | none =>
              match attrGet titleT e.attrs with
              | some w => w
              | none => []
        if sel = [] then [] else htmlUnescape sel)) ∧
    (∀ (cat : Str) (m : FbMatch) (r : FeedRecord), fbRecordOf cat m = some r →
      r.title =
        (let sel : Str :=
          match searchAttr textT m.g0 with
          | some v => if v ≠ [] then v else
              (match searchAttr titleT m.g0 with
               | some w => w
               | none => [])
          | none =>
              match searchAttr titleT m.g0 with
              | some w => w
              | none => []
        if sel = [] then [] else htmlUnescape sel)) ∧
    ((recordOf "c".toList (XmlElem.mk "outline".toList
        [("text".toList, []), ("title".toList, "Fallback Name".toList),
         ("xmlUrl".toList, "http://c.com".toList)] [])).map FeedRecord.title =
      some "Fallback Name".toList) ∧
    ((fbRecords "<outline text=\"\" title=\"Fallback Name\" xmlUrl=\"http://c.com\">".toList
        "c".toList).map FeedRecord.title = ["Fallback Name".toList]) := by
  refine ⟨?_, ?_, by decide, by decide⟩
  · intro cat e r h
    rw [(recordOf_fields h).2.2.2.2]
    cases htx : attrGet textT e.attrs with
    | none => cases htl : attrGet titleT e.attrs <;> simp
    | some v =>
      by_cases hv : v = []
      · subst hv
        cases htl : attrGet titleT e.attrs <;> simp
      · cases htl : attrGet titleT e.attrs <;> simp [hv]
  · intro cat m r h
    rw [(fbRecordOf_fields h).2.2.2.2]
    cases htx : searchAttr textT m.g0 with
    | none => cases htl : searchAttr titleT m.g0 <;> simp
    | some v =>
      by_cases hv : v = []
      · subst hv
        cases htl : searchAttr titleT m.g0 <;> simp
      · cases htl : searchAttr titleT m.g0 <;> simp [hv]

/-- C8 witness: the title-selection rule applied to the scenario-5
element. -/
theorem c8_title_precedence_witness :
    (⟨"Fallback Name".toList, [], "http://c.com".toList, "rss".toList,
        "c".toList⟩ : FeedRecord).title =
      (let sel : Str :=
        match attrGet textT (XmlElem.mk "outline".toList
          [("text".toList, []), ("title".toList, "Fallback Name".toList),
           ("xmlUrl".toList, "http://c.com".toList)] []).attrs with
        | some v => if v ≠ [] then v else
            (match attrGet titleT (XmlElem.mk "outline".toList
              [("text".toList, []), ("title".toList, "Fallback Name".toList),
               ("xmlUrl".toList, "http://c.com".toList)] []).attrs with
             | some w => w
             | none => [])
        | none =>
            match attrGet titleT (XmlElem.mk "outline".toList
              [("text".toList, []), ("title".toList, "Fallback Name".toList),
               ("xmlUrl".toList, "http://c.com".toList)] []).attrs with
            | some w => w
            | none => []
      if sel = [] then [] else htmlUnescape sel) :=
  c8_title_precedence.1 "c".toList
    (XmlElem.mk "outline".toList
      [("text".toList, []), ("title".toList, "Fallback Name".toList),
       ("xmlUrl".toList, "http://c.com".toList)] []) _ (by decide)

/-- C1 (counterexample): with a document whose raw text contains a bare
ampersand, the fallback output of the pipeline equals the scan of the
raw re-read text and differs from the scan of the normalized text, so
the fallback does not run on the text the primary parse received. -/
theorem c1_counterexample :
    parse_opml_file
        ⟨Except.ok "<outline xmlUrl=\"a&b\">".toList,
         fun _ => Except.error PyExn.parseErr, none,
         Except.ok "<outline xmlUrl=\"a&b\">".toList⟩ "c".toList =
      Except.ok (fbRecords "<outline xmlUrl=\"a&b\">".toList "c".toList) ∧
    fbRecords "<outline xmlUrl=\"a&b\">".toList "c".toList ≠
      fbRecords (fix_xml_encoding "<outline xmlUrl=\"a&b\">".toList) "c".toList ∧
    parse_opml_file
        ⟨Except.ok "<outline xmlUrl=\"a&b\">".toList,
         fun _ => Except.error PyExn.parseErr, none,
         Except.ok "<outline xmlUrl=\"a&b\">".toList⟩ "c".toList ≠
      Except.ok (fbRecords (fix_xml_encoding "<outline xmlUrl=\"a&b\">".toList) "c".toList) := by
  refine ⟨rfl, by decide, ?_⟩
  intro hcontra
  have h1 : fbRecords "<outline xmlUrl=\"a&b\">".toList "c".toList =
      fbRecords (fix_xml_encoding "<outline xmlUrl=\"a&b\">".toList) "c".toList := by
    have h0 : parse_opml_file
        ⟨Except.ok "<outline xmlUrl=\"a&b\">".toList,
         fun _ => Except.error PyExn.parseErr, none,
         Except.ok "<outline xmlUrl=\"a&b\">".toList⟩ "c".toList =
        Except.ok (fbRecords "<outline xmlUrl=\"a&b\">".toList "c".toList) := rfl
    rw [h0] at hcontra
    exact Except.ok.inj hcontra
  exact absurd h1 (by decide)

/-- C1 (amended): when the primary parse of the normalized text raises a
structural parse error, the fallback scans the raw content delivered by
its own re-read of the file, without normalization. -/
theorem c1_amended (env : DocEnv) (raw rawFb cat : Str)
    (hr : env.readResult = Except.ok raw)
    (hp : env.fromstring (fix_xml_encoding raw) = Except.error PyExn.parseErr)
    (hf : env.readFbResult = Except.ok rawFb) :
    parse_opml_file env cat = Except.ok (fbRecords rawFb cat) := by
  simp [parse_opml_file, docBody, parse_opml_file_fallback, hr, hp, hf]

/-- C1 witness: the amended statement at a concrete environment. -/
theorem c1_amended_witness :
    parse_opml_file
        ⟨Except.ok "<x>".toList, fun _ => Except.error PyExn.parseErr, none,
         Except.ok "<outline xmlUrl=\"u\">".toList⟩ "c".toList =
      Except.ok (fbRecords "<outline xmlUrl=\"u\">".toList "c".toList) :=
  c1_amended _ "<x>".toList "<outline xmlUrl=\"u\">".toList "c".toList rfl rfl rfl

/-- C4 (counterexample): a traversal interrupted by a non-parse
exception after one processed outline returns the record accumulated so
far and does not attempt the fallback, contradicting both the
zero-records part and the fallback-triggering part of the claim. -/
theorem c4_counterexample :
    parse_opml_file
        ⟨Except.ok "<x>".toList,
         fun _ => Except.ok (XmlElem.mk "opml".toList []
           [XmlElem.mk "outline".toList [("xmlUrl".toList, "u1".toList)] [],
            XmlElem.mk "outline".toList [("xmlUrl".toList, "u2".toList)] []]),
         some 1,
         Except.ok "<outline xmlUrl=\"v\">".toList⟩ "c".toList =
      Except.ok [⟨[], [], "u1".toList, "rss".toList, "c".toList⟩] ∧
    parse_opml_file
        ⟨Except.ok "<x>".toList,
         fun _ => Except.ok (XmlElem.mk "opml".toList []
           [XmlElem.mk "outline".toList [("xmlUrl".toList, "u1".toList)] [],
            XmlElem.mk "outline".toList [("xmlUrl".toList, "u2".toList)] []]),
         some 1,
         Except.ok "<outline xmlUrl=\"v\">".toList⟩ "c".toList ≠
      Except.ok (parse_opml_file_fallback
        ⟨Except.ok "<x>".toList,
         fun _ => Except.ok (XmlElem.mk "opml".toList []
           [XmlElem.mk "outline".toList [("xmlUrl".toList, "u1".toList)] [],
            XmlElem.mk "outline".toList [("xmlUrl".toList, "u2".toList)] []]),
         some 1,
         Except.ok "<outline xmlUrl=\"v\">".toList⟩ "c".toList) := by
  constructor
  · rfl
  · intro hcontra
    have h1 := Except.ok.inj hcontra
    exact absurd h1 (by decide)

/-- C4 (amended): a non-parse exception during the traversal is caught
by the generic handler: the records accumulated before the fault are
returned and the fallback is not attempted (it runs only on a
structural parse error). -/
theorem c4_amended (env : DocEnv) (cat raw : Str) (root : XmlElem) (k : Nat)
    (hr : env.readResult = Except.ok raw)
    (hp : env.fromstring (fix_xml_encoding raw) = Except.ok root)
    (hk : env.primaryExn = some k) :
    parse_opml_file env cat = Except.ok (primaryPartial root cat k) := by
  simp [parse_opml_file, docBody, hr, hp, hk]

/-- C4 witness: the amended statement at a concrete environment. -/
theorem c4_amended_witness :
    parse_opml_file
        ⟨Except.ok "<x>".toList,
         fun _ => Except.ok (XmlElem.mk "opml".toList []
           [XmlElem.mk "outline".toList [("xmlUrl".toList, "u1".toList)] [],
            XmlElem.mk "outline".toList [("xmlUrl".toList, "u2".toList)] []]),
         some 1,
         Except.ok "<outline xmlUrl=\"v\">".toList⟩ "c".toList =
      Except.ok (primaryPartial (XmlElem.mk "opml".toList []
        [XmlElem.mk "outline".toList [("xmlUrl".toList, "u1".toList)] [],
         XmlElem.mk "outline".toList [("xmlUrl".toList, "u2".toList)] []]) "c".toList 1) :=
  c4_amended _ "c".toList "<x>".toList _ 1 rfl rfl rfl

/-! ## Order preservation -/

theorem primaryRecords_eq_forest (e : XmlElem) (cat : Str) :
    primaryRecords e cat = primaryForest e.children cat := by
  cases e
  rfl

theorem primaryForest_cons (e : XmlElem) (es : List XmlElem) (cat : Str) :
    primaryForest (e :: es) cat =
      outlineRecord cat e ++ primaryForest e.children cat ++ primaryForest es cat := by
  cases e with
  | mk t a cs =>
    have hd : descForest (XmlElem.mk t a cs :: es) =
        XmlElem.mk t a cs :: (descForest cs ++ descForest es) := by
      simp [descForest, descElem]
    unfold primaryForest
    rw [hd, List.filter_cons]
    by_cases ht : XmlElem.tag (XmlElem.mk t a cs) = outlineT
    · rw [if_pos (by simpa using ht), List.filterMap_cons]
      cases hrec : recordOf cat (XmlElem.mk t a cs) with
      | none =>
        simp [outlineRecord, ht, hrec, List.filter_append, List.filterMap_append,
          XmlElem.children]
      | some r =>
        simp [outlineRecord, ht, hrec, List.filter_append, List.filterMap_append,
          XmlElem.children]
    · rw [if_neg (by simpa using ht)]
      simp [outlineRecord, ht, List.filter_append, List.filterMap_append, XmlElem.children]

theorem interleave_cons (p : Str) (ps : List Str) (m : Str) (ms : List Str) :
    interleave (p :: ps) (m :: ms) = p ++ (m ++ interleave ps ms) := by
  simp [interleave]

theorem interleave_cons_gap {p : Str} {ps ms : List Str} (h : ps.length = ms.length)
    (c : Char) : interleave ((c :: p) :: ps) ms = c :: interleave (p :: ps) ms := by
  cases ms with
  | nil =>
    have hp : ps = [] := List.length_eq_zero.1 h
    subst hp
    rfl
  | cons m ms1 =>
    rw [interleave_cons, interleave_cons]
    simp

theorem fbMatches_interleave_aux :
    ∀ (n : Nat) (s : Str), s.length ≤ n →
      ∃ ps : List Str, ps.length = (fbMatches s).length + 1 ∧
        s = interleave ps ((fbMatches s).map FbMatch.g0) := by
  intro n
  induction n with
  | zero =>
    intro s hs
    have h0 : s = [] := List.length_eq_zero.1 (Nat.le_zero.1 hs)
    subst h0
    exact ⟨[[]], by simp [fbMatches_nil], by simp [fbMatches_nil]; rfl⟩
  | succ n ih =>
    intro s hs
    cases hm : matchAt s with
    | some m =>
      obtain ⟨hdec, hne⟩ := matchAt_decomp hm
      have hlt := matchAt_rest_lt hm
      obtain ⟨ps, hlen, hint⟩ := ih m.rest (by omega)
      rw [fbMatches_match hm]
      refine ⟨[] :: ps, by simp [hlen], ?_⟩
      simp only [List.map_cons, List.length_cons]
      rw [interleave_cons, ← hint]
      simpa using hdec
    | none =>
      cases s with
      | nil => exact ⟨[[]], by simp [fbMatches_nil], by simp [fbMatches_nil]; rfl⟩
      | cons c cs =>
        rw [fbMatches_skip hm]
        simp only [List.length_cons] at hs
        obtain ⟨ps, hlen, hint⟩ := ih cs (by omega)
        cases ps with
        | nil => simp at hlen
        | cons p ps1 =>
          refine ⟨(c :: p) :: ps1, by simpa using hlen, ?_⟩
          have hlen2 : ps1.length = ((fbMatches cs).map FbMatch.g0).length := by
            simp only [List.length_cons] at hlen
            simp only [List.length_map]
            omega
          rw [interleave_cons_gap hlen2, ← hint]

/-- C9: both paths preserve document order.  The primary walk emits, for
each child in order, the record of that child (when it is a qualifying
outline) followed by the records of its subtree; the fallback matches
are pairwise disjoint segments of the scanned text in left-to-right
order, which is the order their records are emitted in. -/
theorem c9_order_preservation :
    (∀ (t : Str) (a : List (Str × Str)) (cs : List XmlElem) (cat : Str),
      primaryRecords (XmlElem.mk t a cs) cat =
        cs.flatMap fun e => outlineRecord cat e ++ primaryRecords e cat) ∧
    (∀ s : Str, ∃ ps : List Str, ps.length = (fbMatches s).length + 1 ∧
      s = interleave ps ((fbMatches s).map FbMatch.g0)) ∧
    (∀ (s cat : Str), fbRecords s cat = (fbMatches s).filterMap (fbRecordOf cat)) := by
  refine ⟨?_, ?_, fun s cat => rfl⟩
  · intro t a cs cat
    rw [primaryRecords_eq_forest]
    show primaryForest cs cat = _
    induction cs with
    | nil => rfl
    | cons e es ih =>
      rw [primaryForest_cons, List.flatMap_cons, ← ih, primaryRecords_eq_forest]
  · intro s
    exact fbMatches_interleave_aux s.length s le_rfl

/-! ## Serialization content facts -/

theorem cleanValChar_iff {c : Char} : cleanValChar c = true ↔
    c ≠ '&' ∧ c ≠ '<' ∧ c ≠ '>' ∧ c ≠ quoteC ∧ c ≠ '=' := by
  simp [cleanValChar, and_assoc]

theorem cleanAttr_iff {p : Str × Str} : cleanAttr p = true ↔
    p.1 ≠ [] ∧ (∀ c ∈ p.1, alphaC c = true) ∧
    (p.1 = xmlUrlT ∨ hasOccCi xmlUrlT p.1 = false) ∧
    ∀ c ∈ p.2, cleanValChar c = true := by
  simp [cleanAttr, and_assoc, List.all_eq_true, Bool.not_eq_true']

theorem cleanElem_mk_iff {t : Str} {a : List (Str × Str)} {cs : List XmlElem} :
    cleanElem (XmlElem.mk t a cs) = true ↔
    t ≠ [] ∧ (∀ c ∈ t, lowerAlpha c = true) ∧ (∀ p ∈ a, cleanAttr p = true) ∧
    cleanForest cs = true := by
  simp [cleanElem, and_assoc, List.all_eq_true]

theorem cleanForest_cons_iff {e : XmlElem} {es : List XmlElem} :
    cleanForest (e :: es) = true ↔ cleanElem e = true ∧ cleanForest es = true := by
  simp [cleanForest]

theorem escAttr_clean {v : Str} (hv : ∀ c ∈ v, cleanValChar c = true) : escAttr v = v := by
  induction v with
  | nil => rfl
  | cons c cs ih =>
    obtain ⟨h1, h2, h3, h4, _⟩ := cleanValChar_iff.1 (hv c (by simp))
    have hstep : escAttrChar c = [c] := by
      simp [escAttrChar, h1, h2, h3, h4]
    show escAttrChar c ++ escAttr cs = c :: cs
    rw [hstep, ih fun b hb => hv b (by simp [hb])]
    rfl

theorem mem_attrsText {a : List (Str × Str)} (ha : ∀ p ∈ a, cleanAttr p = true) :
    ∀ c ∈ attrsText a, c = ' ' ∨ alphaC c = true ∨ c = '=' ∨ c = quoteC ∨
      cleanValChar c = true := by
  induction a with
  | nil => intro c hc; simp [attrsText] at hc
  | cons p rest ih =>
    obtain ⟨n, v⟩ := p
    obtain ⟨_, hna, _, hvclean⟩ := cleanAttr_iff.1 (ha (n, v) (by simp))
    intro c hc
    simp only [attrsText, escAttr_clean hvclean, List.mem_cons, List.mem_append] at hc
    rcases hc with rfl | hc | rfl | rfl | hc | rfl | hc
    · exact Or.inl rfl
    · exact Or.inr (Or.inl (hna c hc))
    · exact Or.inr (Or.inr (Or.inl rfl))
    · exact Or.inr (Or.inr (Or.inr (Or.inl rfl)))
    · exact Or.inr (Or.inr (Or.inr (Or.inr (hvclean c hc))))
    · exact Or.inr (Or.inr (Or.inr (Or.inl rfl)))
    · exact ih (fun q hq => ha q (by simp [hq])) c hc

theorem attrsText_ne_gt {a : List (Str × Str)} (ha : ∀ p ∈ a, cleanAttr p = true) :
    ∀ c ∈ attrsText a, c ≠ '>' := by
  intro c hc
  rcases mem_attrsText ha c hc with rfl | h | rfl | rfl | h
  · decide
  · simp only [alphaC, lowerAlpha, Bool.or_eq_true, Bool.and_eq_true, decide_eq_true_eq] at h
    intro heq
    subst heq
    simp only [show ('>').toNat = 62 from rfl] at h
    omega
  · decide
  · decide
  · exact (cleanValChar_iff.1 h).2.2.1

theorem attrsText_ne_lt {a : List (Str × Str)} (ha : ∀ p ∈ a, cleanAttr p = true) :
    ∀ c ∈ attrsText a, c ≠ '<' := by
  intro c hc
  rcases mem_attrsText ha c hc with rfl | h | rfl | rfl | h
  · decide
  · simp only [alphaC, lowerAlpha, Bool.or_eq_true, Bool.and_eq_true, decide_eq_true_eq] at h
    intro heq
    subst heq
    simp only [show ('<').toNat = 60 from rfl] at h
    omega
  · decide
  · decide
  · exact (cleanValChar_iff.1 h).2.1

theorem lowerAlpha_ne_lt {c : Char} (h : lowerAlpha c = true) : c ≠ '<' := by
  simp only [lowerAlpha, Bool.and_eq_true, decide_eq_true_eq] at h
  intro heq
  subst heq
  simp only [show ('<').toNat = 60 from rfl] at h
  omega

/-! ## Case-insensitive prefix span analysis -/

theorem ciPrefix_cons_iff {p c : Char} {ps cs : Str} :
    ciPrefix (p :: ps) (c :: cs) = true ↔ (ciChar p c = true ∧ ciPrefix ps cs = true) := by
  by_cases h : ciChar p c = true
  · simp [ciPrefix, h]
  · simp [ciPrefix, h]

theorem alphaC_ne_eqsign {c : Char} (h : alphaC c = true) : c ≠ '=' := by
  simp only [alphaC, lowerAlpha, Bool.or_eq_true, Bool.and_eq_true, decide_eq_true_eq] at h
  intro heq
  subst heq
  simp only [show ('=').toNat = 61 from rfl] at h
  omega

theorem ciChar_forces_eqsign {c : Char} (h : ciChar '=' c = true) : c = '=' := by
  simp only [ciChar, decide_eq_true_eq] at h
  have h61 : ('=').toLower = '=' := by decide
  rw [h61] at h
  exact toLower_eq_nonletter (by decide) h.symm

/-- If the pattern `xmlUrl="` matches starting inside an alphabetic
attribute name whose remainder is `n1` and the junction `="` follows,
then `n1` is exactly the six characters `xmlUrl` up to case. -/
theorem urlPat_in_name {n1 : Str} (hn : ∀ c ∈ n1, alphaC c = true) {w : Str}
    (h : ciPrefix urlPat (n1 ++ '=' :: quoteC :: w) = true) :
    n1.length = 6 ∧ ciPrefix xmlUrlT n1 = true := by
  match n1, hn with
  | [], _ =>
    rw [show ([] : Str) ++ '=' :: quoteC :: w = '=' :: quoteC :: w from rfl,
      show urlPat = 'x' :: 'm' :: 'l' :: 'U' :: 'r' :: 'l' :: '=' :: [quoteC] from rfl,
      ciPrefix_cons_iff] at h
    exact absurd h.1 (by decide)
  | [c1], hn =>
    simp only [List.cons_append, List.nil_append,
      show urlPat = 'x' :: 'm' :: 'l' :: 'U' :: 'r' :: 'l' :: '=' :: [quoteC] from rfl,
      ciPrefix_cons_iff] at h
    exact absurd h.2.1 (by decide)
  | [c1, c2], hn =>
    simp only [List.cons_append, List.nil_append,
      show urlPat = 'x' :: 'm' :: 'l' :: 'U' :: 'r' :: 'l' :: '=' :: [quoteC] from rfl,
      ciPrefix_cons_iff] at h
    exact absurd h.2.2.1 (by decide)
  | [c1, c2, c3], hn =>
    simp only [List.cons_append, List.nil_append,
      show urlPat = 'x' :: 'm' :: 'l' :: 'U' :: 'r' :: 'l' :: '=' :: [quoteC] from rfl,
      ciPrefix_cons_iff] at h
    exact absurd h.2.2.2.1 (by decide)
  | [c1, c2, c3, c4], hn =>
    simp only [List.cons_append, List.nil_append,
      show urlPat = 'x' :: 'm' :: 'l' :: 'U' :: 'r' :: 'l' :: '=' :: [quoteC] from rfl,
      ciPrefix_cons_iff] at h
    exact absurd h.2.2.2.2.1 (by decide)
  | [c1, c2, c3, c4, c5], hn =>
    simp only [List.cons_append, List.nil_append,
      show urlPat = 'x' :: 'm' :: 'l' :: 'U' :: 'r' :: 'l' :: '=' :: [quoteC] from rfl,
      ciPrefix_cons_iff] at h
    exact absurd h.2.2.2.2.2.1 (by decide)
  | [c1, c2, c3, c4, c5, c6], hn =>
    simp only [List.cons_append, List.nil_append,
      show urlPat = 'x' :: 'm' :: 'l' :: 'U' :: 'r' :: 'l' :: '=' :: [quoteC] from rfl,
      ciPrefix_cons_iff] at h
    refine ⟨rfl, ?_⟩
    rw [show xmlUrlT = 'x' :: 'm' :: 'l' :: 'U' :: 'r' :: ['l'] from rfl]
    rw [ciPrefix_cons_iff]
    refine ⟨h.1, ?_⟩
    rw [ciPrefix_cons_iff]
    refine ⟨h.2.1, ?_⟩
    rw [ciPrefix_cons_iff]
    refine ⟨h.2.2.1, ?_⟩
    rw [ciPrefix_cons_iff]
    refine ⟨h.2.2.2.1, ?_⟩
    rw [ciPrefix_cons_iff]
    refine ⟨h.2.2.2.2.1, ?_⟩
    rw [ciPrefix_cons_iff]
    exact ⟨h.2.2.2.2.2.1, rfl⟩
  | c1 :: c2 :: c3 :: c4 :: c5 :: c6 :: c7 :: rest, hn =>
    simp only [List.cons_append,
      show urlPat = 'x' :: 'm' :: 'l' :: 'U' :: 'r' :: 'l' :: '=' :: [quoteC] from rfl,
      ciPrefix_cons_iff] at h
    have hc7 : c7 = '=' := ciChar_forces_eqsign h.2.2.2.2.2.2.1
    have halpha : alphaC c7 = true := hn c7 (by simp)
    rw [hc7] at halpha
    exact absurd halpha (by decide)

/-- The pattern `xmlUrl="` can never match starting inside a
well-behaved attribute value followed by its closing quote. -/
theorem urlPat_in_value {v1 : Str} (hv : ∀ c ∈ v1, cleanValChar c = true) {z : Str}
    (h : ciPrefix urlPat (v1 ++ quoteC :: z) = true) : False := by
  match v1, hv with
  | [], _ =>
    rw [show ([] : Str) ++ quoteC :: z = quoteC :: z from rfl,
      show urlPat = 'x' :: 'm' :: 'l' :: 'U' :: 'r' :: 'l' :: '=' :: [quoteC] from rfl,
      ciPrefix_cons_iff] at h
    exact absurd h.1 (by decide)
  | [c1], hv =>
    simp only [List.cons_append, List.nil_append,
      show urlPat = 'x' :: 'm' :: 'l' :: 'U' :: 'r' :: 'l' :: '=' :: [quoteC] from rfl,
      ciPrefix_cons_iff] at h
    exact absurd h.2.1 (by decide)
  | [c1, c2], hv =>
    simp only [List.cons_append, List.nil_append,
      show urlPat = 'x' :: 'm' :: 'l' :: 'U' :: 'r' :: 'l' :: '=' :: [quoteC] from rfl,
      ciPrefix_cons_iff] at h
    exact absurd h.2.2.1 (by decide)
  | [c1, c2, c3], hv =>
    simp only [List.cons_append, List.nil_append,
      show urlPat = 'x' :: 'm' :: 'l' :: 'U' :: 'r' :: 'l' :: '=' :: [quoteC] from rfl,
      ciPrefix_cons_iff] at h
    exact absurd h.2.2.2.1 (by decide)
  | [c1, c2, c3, c4], hv =>
    simp only [List.cons_append, List.nil_append,
      show urlPat = 'x' :: 'm' :: 'l' :: 'U' :: 'r' :: 'l' :: '=' :: [quoteC] from rfl,
      ciPrefix_cons_iff] at h
    exact absurd h.2.2.2.2.1 (by decide)
  | [c1, c2, c3, c4, c5], hv =>
    simp only [List.cons_append, List.nil_append,
      show urlPat = 'x' :: 'm' :: 'l' :: 'U' :: 'r' :: 'l' :: '=' :: [quoteC] from rfl,
      ciPrefix_cons_iff] at h
    exact absurd h.2.2.2.2.2.1 (by decide)
  | [c1, c2, c3, c4, c5, c6], hv =>
    simp only [List.cons_append, List.nil_append,
      show urlPat = 'x' :: 'm' :: 'l' :: 'U' :: 'r' :: 'l' :: '=' :: [quoteC] from rfl,
      ciPrefix_cons_iff] at h
    exact absurd h.2.2.2.2.2.2.1 (by decide)
  | c1 :: c2 :: c3 :: c4 :: c5 :: c6 :: c7 :: rest, hv =>
    simp only [List.cons_append,
      show urlPat = 'x' :: 'm' :: 'l' :: 'U' :: 'r' :: 'l' :: '=' :: [quoteC] from rfl,
      ciPrefix_cons_iff] at h
    have hc7 : c7 = '=' := ciChar_forces_eqsign h.2.2.2.2.2.2.1
    have hclean : cleanValChar c7 = true := hv c7 (by simp)
    rw [hc7] at hclean
    exact absurd hclean (by decide)

/-! ## Walking the scanner through clean text -/

theorem prependCon_nil (r : Option (Str × Str × Str)) : prependCon [] r = r := by
  cases r with
  | none => rfl
  | some p =>
    obtain ⟨con, u, rem⟩ := p
    simp [prependCon]

theorem prependCon_comp (p q : Str) (r : Option (Str × Str × Str)) :
    prependCon p (prependCon q r) = prependCon (p ++ q) r := by
  cases r with
  | none => rfl
  | some x =>
    obtain ⟨con, u, rem⟩ := x
    simp [prependCon]

theorem findUrl_skip {c : Char} {y : Str} (h1 : ciPrefix urlPat (c :: y) = false)
    (h2 : c ≠ '>') : findUrl (c :: y) = prependCon [c] (findUrl y) := by
  cases hf : findUrl y with
  | none => simp [findUrl, h1, h2, hf, prependCon]
  | some p =>
    obtain ⟨con, u, rem⟩ := p
    simp [findUrl, h1, h2, hf, prependCon]

theorem ciPrefix_urlPat_false_head {c : Char} {y : Str} (h : ciChar 'x' c = false) :
    ciPrefix urlPat (c :: y) = false := by
  rw [show urlPat = 'x' :: 'm' :: 'l' :: 'U' :: 'r' :: 'l' :: '=' :: [quoteC] from rfl]
  simp [ciPrefix, h]

theorem suffix_append_cases {p2 x y : Str} (h : p2 <:+ x ++ y) :
    p2 <:+ y ∨ ∃ x2, x2 <:+ x ∧ x2 ≠ [] ∧ p2 = x2 ++ y := by
  obtain ⟨pre, hpre⟩ := h
  rcases List.append_eq_append_iff.1 hpre with ⟨a2, ha1, ha2⟩ | ⟨c2, _, hc2⟩
  · cases a2 with
    | nil =>
      left
      rw [ha2, List.nil_append]
    | cons d ds =>
      right
      exact ⟨d :: ds, ⟨pre, ha1.symm⟩, by simp, ha2⟩
  · left
    exact ⟨c2, hc2.symm⟩

theorem hasOccCi_of_suffix {pat s2 s : Str} (hp : ciPrefix pat s2 = true) (hs : s2 <:+ s) :
    hasOccCi pat s = true := by
  obtain ⟨pre, rfl⟩ := hs
  induction pre with
  | nil =>
    cases s2 with
    | nil => simpa [hasOccCi] using hp
    | cons c cs => simp [hasOccCi, hp]
  | cons d ds ih => simp [hasOccCi, ih]

theorem alphaC_ne_gt {c : Char} (h : alphaC c = true) : c ≠ '>' := by
  simp only [alphaC, lowerAlpha, Bool.or_eq_true, Bool.and_eq_true, decide_eq_true_eq] at h
  intro heq
  subst heq
  simp only [show ('>').toNat = 62 from rfl] at h
  omega

theorem alphaC_head_not_x_false {c : Char} (h : ciChar 'x' c = true) :
    97 ≤ c.toLower.toNat ∧ c.toLower.toNat ≤ 122 := by
  simp only [ciChar, decide_eq_true_eq] at h
  rw [← h]
  decide

theorem findUrl_walk :
    ∀ (p z : Str),
      (∀ p2, p2 <:+ p → p2 ≠ [] → ciPrefix urlPat (p2 ++ z) = false) →
      (∀ c ∈ p, c ≠ '>') →
      findUrl (p ++ z) = prependCon p (findUrl z) := by
  intro p
  induction p with
  | nil =>
    intro z _ _
    rw [List.nil_append, prependCon_nil]
  | cons c cs ih =>
    intro z hno hgt
    have h1 : ciPrefix urlPat ((c :: cs) ++ z) = false :=
      hno (c :: cs) (List.suffix_refl _) (by simp)
    rw [List.cons_append,
      findUrl_skip (by simpa using h1) (hgt c (by simp)),
      ih z (fun p2 hs hne => hno p2 (hs.trans (List.suffix_cons c cs)) hne)
        (fun b hb => hgt b (by simp [hb])),
      prependCon_comp]
    rfl

theorem ciPrefix_urlPat_false_head2 {c : Char} {p2 z : Str} (h : ciChar 'x' c = false) :
    ciPrefix urlPat ((c :: p2) ++ z) = false := by
  rw [List.cons_append]
  exact ciPrefix_urlPat_false_head h

/-- Walking `findUrl` through a serialized attribute whose name is not
`xmlUrl`: no occurrence of the pattern can start inside the block. -/
theorem findUrl_block {n v : Str} (hn : ∀ c ∈ n, alphaC c = true)
    (hnx : hasOccCi xmlUrlT n = false) (hv : ∀ c ∈ v, cleanValChar c = true) (z : Str) :
    findUrl ((' ' :: (n ++ '=' :: quoteC :: (v ++ [quoteC]))) ++ z) =
      prependCon (' ' :: (n ++ '=' :: quoteC :: (v ++ [quoteC]))) (findUrl z) := by
  apply findUrl_walk
  · intro p2 hs hne
    by_contra hciT
    have hci : ciPrefix urlPat (p2 ++ z) = true := by
      cases hx : ciPrefix urlPat (p2 ++ z) with
      | false => exact absurd hx hciT
      | true => rfl
    rw [show (' ' :: (n ++ '=' :: quoteC :: (v ++ [quoteC]))) =
      [' '] ++ (n ++ ('=' :: quoteC :: (v ++ [quoteC]))) from rfl] at hs
    rcases suffix_append_cases hs with hs1 | ⟨x2, hx2, hx2ne, rfl⟩
    · rcases suffix_append_cases hs1 with hs2 | ⟨n2, hn2, hn2ne, rfl⟩
      · rw [List.suffix_cons_iff] at hs2
        rcases hs2 with rfl | hs3
        · rw [ciPrefix_urlPat_false_head2 (show ciChar 'x' '=' = false by decide)] at hci
          exact Bool.false_ne_true hci
        · rw [List.suffix_cons_iff] at hs3
          rcases hs3 with rfl | hs4
          · rw [ciPrefix_urlPat_false_head2 (show ciChar 'x' quoteC = false by decide)] at hci
            exact Bool.false_ne_true hci
          · rcases suffix_append_cases hs4 with hs5 | ⟨v2, hv2, hv2ne, rfl⟩
            · rw [List.suffix_cons_iff] at hs5
              rcases hs5 with rfl | hs6
              · rw [ciPrefix_urlPat_false_head2
                  (show ciChar 'x' quoteC = false by decide)] at hci
                exact Bool.false_ne_true hci
              · rw [List.suffix_nil] at hs6
                exact hne hs6
            · have hvc : ∀ c ∈ v2, cleanValChar c = true := fun c hc =>
                hv c (hv2.subset hc)
              rw [List.append_assoc] at hci
              exact urlPat_in_value hvc (by simpa using hci)
      · have hnc : ∀ c ∈ n2, alphaC c = true := fun c hc => hn c (hn2.subset hc)
        rw [List.append_assoc] at hci
        obtain ⟨_, hcip⟩ := urlPat_in_name hnc (by simpa using hci)
        exact absurd (hasOccCi_of_suffix hcip hn2) (by simp [hnx])
    · rw [List.suffix_cons_iff] at hx2
      rcases hx2 with rfl | hx3
      · have hci2 : ciPrefix urlPat (' ' :: (n ++ ('=' :: quoteC :: (v ++ [quoteC])) ++ z))
            = true := by
          simpa using hci
        rw [ciPrefix_urlPat_false_head (show ciChar 'x' ' ' = false by decide)] at hci2
        exact Bool.false_ne_true hci2
      · rw [List.suffix_nil] at hx3
        exact hx2ne hx3
  · intro c hc
    simp only [List.mem_cons, List.mem_append] at hc
    rcases hc with rfl | hc | rfl | rfl | hc | rfl | h0
    · decide
    · exact alphaC_ne_gt (hn c hc)
    · decide
    · decide
    · exact (cleanValChar_iff.1 (hv c hc)).2.2.1
    · decide
    · exact absurd h0 (by simp)

theorem prependCon_none (p : Str) : prependCon p none = none := rfl

/-- The scanner succeeding exactly at an `xmlUrl="` occurrence: it
captures up to the closing quote and consumes up to the first `>`. -/
theorem findUrl_at_urlPat {v : Str} (hv : ∀ c ∈ v, cleanValChar c = true)
    {mid z : Str} (hmid : ∀ c ∈ mid, c ≠ '>') :
    findUrl (urlPat ++ (v ++ quoteC :: (mid ++ '>' :: z))) =
      some (urlPat ++ (v ++ quoteC :: (mid ++ ['>'])), v, z) := by
  have hqv : quoteC ∉ v := fun hm => (cleanValChar_iff.1 (hv quoteC hm)).2.2.2.1 rfl
  have hgm : ('>') ∉ mid := fun hm => hmid _ hm rfl
  have hci : ciPrefix urlPat (urlPat ++ (v ++ quoteC :: (mid ++ '>' :: z))) = true :=
    ciPrefix_append_self _ _
  have hdrop : List.drop 8 (urlPat ++ (v ++ quoteC :: (mid ++ '>' :: z))) =
      v ++ quoteC :: (mid ++ '>' :: z) := rfl
  have htake : List.take 8 (urlPat ++ (v ++ quoteC :: (mid ++ '>' :: z))) = urlPat := rfl
  have hsq : splitOnChar quoteC (v ++ quoteC :: (mid ++ '>' :: z)) =
      some (v, mid ++ '>' :: z) := splitOnChar_append hqv _
  have hsg : splitOnChar '>' (mid ++ '>' :: z) = some (mid, z) := splitOnChar_append hgm _
  rw [show urlPat ++ (v ++ quoteC :: (mid ++ '>' :: z)) =
    'x' :: ('m' :: 'l' :: 'U' :: 'r' :: 'l' :: '=' :: quoteC ::
      (v ++ quoteC :: (mid ++ '>' :: z))) from rfl] at hci hdrop htake ⊢
  rw [findUrl]
  simp only [hdrop, hsq, hsg, hci, if_true, htake]
  simp [List.append_assoc]

theorem findUrl_attrs_none {a : List (Str × Str)} (ha : ∀ p ∈ a, cleanAttr p = true)
    (hnone : attrGet xmlUrlT a = none) (z : Str) :
    findUrl (attrsText a ++ '>' :: z) = none := by
  induction a with
  | nil =>
    show findUrl ([] ++ '>' :: z) = none
    rw [List.nil_append]
    simp [findUrl, ciPrefix_urlPat_false_head (show ciChar 'x' '>' = false by decide)]
  | cons p rest ih =>
    obtain ⟨n, v⟩ := p
    obtain ⟨_, hna, hdisj, hvc⟩ := cleanAttr_iff.1 (ha (n, v) (by simp))
    have hget : n ≠ xmlUrlT ∧ attrGet xmlUrlT rest = none := by
      by_cases hn2 : n = xmlUrlT
      · rw [show attrGet xmlUrlT ((n, v) :: rest) = some v from by simp [attrGet, hn2]]
          at hnone
        exact absurd hnone (by simp)
      · exact ⟨hn2, by simpa [attrGet, hn2] using hnone⟩
    have hnx : hasOccCi xmlUrlT n = false := by
      rcases hdisj with h | h
      · exact absurd h hget.1
      · exact h
    have hshape : attrsText ((n, v) :: rest) ++ '>' :: z =
        (' ' :: (n ++ '=' :: quoteC :: (v ++ [quoteC]))) ++ (attrsText rest ++ '>' :: z) := by
      simp [attrsText, escAttr_clean hvc]
    rw [hshape, findUrl_block hna hnx hvc _, ih (fun q hq => ha q (by simp [hq])) hget.2,
      prependCon_none]

theorem findUrl_attrs_some :
    ∀ {a : List (Str × Str)}, (∀ p ∈ a, cleanAttr p = true) →
      ∀ {u : Str}, attrGet xmlUrlT a = some u → ∀ z : Str,
      findUrl (attrsText a ++ '>' :: z) = some (attrsText a ++ ['>'], u, z) := by
  intro a
  induction a with
  | nil =>
    intro _ u h _
    simp [attrGet] at h
  | cons p rest ih =>
    intro ha u hget z
    obtain ⟨n, v⟩ := p
    obtain ⟨_, hna, hdisj, hvc⟩ := cleanAttr_iff.1 (ha (n, v) (by simp))
    by_cases hn2 : n = xmlUrlT
    · subst hn2
      have hu : u = v := by
        have h2 := hget
        simp [attrGet] at h2
        exact h2.symm
      subst hu
      have hmid : ∀ c ∈ attrsText rest, c ≠ '>' :=
        attrsText_ne_gt fun q hq => ha q (by simp [hq])
      have hshape : attrsText ((xmlUrlT, u) :: rest) ++ '>' :: z =
          [' '] ++ (urlPat ++ (u ++ quoteC :: (attrsText rest ++ '>' :: z))) := by
        simp [attrsText, escAttr_clean hvc, urlPat, xmlUrlT]
      rw [hshape,
        findUrl_walk [' '] _
          (fun p2 hs hne => by
            rw [List.suffix_cons_iff] at hs
            rcases hs with rfl | hs2
            · exact ciPrefix_urlPat_false_head2 (by decide)
            · rw [List.suffix_nil] at hs2
              exact absurd hs2 hne)
          (by intro c hc; simp only [List.mem_singleton] at hc; subst hc; decide),
        findUrl_at_urlPat hvc hmid]
      have hout : attrsText ((xmlUrlT, u) :: rest) ++ ['>'] =
          [' '] ++ (urlPat ++ (u ++ quoteC :: (attrsText rest ++ ['>']))) := by
        simp [attrsText, escAttr_clean hvc, urlPat, xmlUrlT]
      rw [hout]
      rfl
    · have hget2 : attrGet xmlUrlT rest = some u := by
        simpa [attrGet, hn2] using hget
      have hnx : hasOccCi xmlUrlT n = false := by
        rcases hdisj with h | h
        · exact absurd h hn2
        · exact h
      have hshape : attrsText ((n, v) :: rest) ++ '>' :: z =
          (' ' :: (n ++ '=' :: quoteC :: (v ++ [quoteC]))) ++
            (attrsText rest ++ '>' :: z) := by
        simp [attrsText, escAttr_clean hvc]
      rw [hshape, findUrl_block hna hnx hvc _, ih (fun q hq => ha q (by simp [hq])) hget2 z]
      have hout : attrsText ((n, v) :: rest) ++ ['>'] =
          (' ' :: (n ++ '=' :: quoteC :: (v ++ [quoteC]))) ++ (attrsText rest ++ ['>']) := by
        simp [attrsText, escAttr_clean hvc]
      rw [hout]
      rfl

/-! ## Matching at a serialized open tag -/

theorem lowerAlpha_toLower_self {c : Char} (h : lowerAlpha c = true) : c.toLower = c := by
  simp only [lowerAlpha, Bool.and_eq_true, decide_eq_true_eq] at h
  exact toLower_self_of_not_upper (by omega)

theorem lowerAlpha_not_ws {c : Char} (h : lowerAlpha c = true) : isPyWs c = false := by
  simp only [lowerAlpha, Bool.and_eq_true, decide_eq_true_eq] at h
  cases hx : isPyWs c with
  | false => rfl
  | true =>
    exfalso
    simp only [isPyWs, Bool.or_eq_true, decide_eq_true_eq] at hx
    rcases hx with (((((rfl | rfl) | rfl) | rfl) | rfl) | rfl) <;> revert h <;> decide

theorem matchAt_openTag_some {n v : Str} {rest0 : List (Str × Str)}
    (ha : ∀ p ∈ (n, v) :: rest0, cleanAttr p = true) {u : Str}
    (hsome : attrGet xmlUrlT ((n, v) :: rest0) = some u) (z : Str) :
    matchAt (outlinePat ++ (attrsText ((n, v) :: rest0) ++ '>' :: z)) =
      some ⟨outlinePat ++ (attrsText ((n, v) :: rest0) ++ ['>']), u, z⟩ := by
  have hfu := findUrl_attrs_some ha hsome z
  have hci : ciPrefix outlinePat
      (outlinePat ++ (attrsText ((n, v) :: rest0) ++ '>' :: z)) = true :=
    ciPrefix_append_self _ _
  have hdrop : List.drop 8 (outlinePat ++ (attrsText ((n, v) :: rest0) ++ '>' :: z)) =
      attrsText ((n, v) :: rest0) ++ '>' :: z := by
    rw [show (8 : Nat) = outlinePat.length from rfl]
    exact List.drop_left _ _
  have htake : List.take 8 (outlinePat ++ (attrsText ((n, v) :: rest0) ++ '>' :: z)) =
      outlinePat := by
    rw [show (8 : Nat) = outlinePat.length from rfl]
    exact List.take_left _ _
  have hconsform : attrsText ((n, v) :: rest0) ++ '>' :: z =
      ' ' :: ((n ++ '=' :: quoteC :: (escAttr v ++ quoteC :: attrsText rest0)) ++ '>' :: z) := by
    simp [attrsText]
  rw [hconsform] at hfu hci hdrop htake
  conv_lhs => rw [hconsform]
  unfold matchAt
  rw [hdrop]
  simp only [hci, if_true, show isPyWs ' ' = true from by decide, hfu, htake]

theorem matchAt_openTag_none_noUrl {a : List (Str × Str)} (ha : ∀ p ∈ a, cleanAttr p = true)
    (hnone : attrGet xmlUrlT a = none) (z : Str) :
    matchAt (outlinePat ++ (attrsText a ++ '>' :: z)) = none := by
  have hci : ciPrefix outlinePat (outlinePat ++ (attrsText a ++ '>' :: z)) = true :=
    ciPrefix_append_self _ _
  have hdrop : List.drop 8 (outlinePat ++ (attrsText a ++ '>' :: z)) =
      attrsText a ++ '>' :: z := by
    rw [show (8 : Nat) = outlinePat.length from rfl]
    exact List.drop_left _ _
  cases a with
  | nil =>
    unfold matchAt
    rw [hdrop]
    simp only [hci, if_true, attrsText, List.nil_append,
      show isPyWs '>' = false from by decide]
    simp
  | cons p rest0 =>
    obtain ⟨n, v⟩ := p
    have hfu := findUrl_attrs_none ha hnone z
    have hconsform : attrsText ((n, v) :: rest0) ++ '>' :: z =
        ' ' :: ((n ++ '=' :: quoteC :: (escAttr v ++ quoteC :: attrsText rest0)) ++
          '>' :: z) := by
      simp [attrsText]
    rw [hconsform] at hfu hci hdrop
    conv_lhs => rw [hconsform]
    unfold matchAt
    rw [hdrop]
    simp only [hci, if_true, show isPyWs ' ' = true from by decide, hfu]

theorem matchAt_none_of_ne_lt {c : Char} {y : Str} (h : c ≠ '<') : matchAt (c :: y) = none := by
  have hci : ciPrefix outlinePat (c :: y) = false := by
    rw [show outlinePat = '<' :: 'o' :: 'u' :: 't' :: 'l' :: 'i' :: 'n' :: ['e'] from rfl]
    have hcc : ciChar '<' c = false := by
      cases hx : ciChar '<' c with
      | false => rfl
      | true =>
        exact absurd (ciChar_eq_nonletter (by decide) (by decide) hx) h
    simp [ciPrefix, hcc]
  unfold matchAt
  simp [hci]

theorem fbMatches_skip_no_lt {p : Str} (hp : ∀ c ∈ p, c ≠ '<') (x : Str) :
    fbMatches (p ++ x) = fbMatches x := by
  induction p with
  | nil => rfl
  | cons c cs ih =>
    rw [List.cons_append, fbMatches_skip (matchAt_none_of_ne_lt (hp c (by simp))),
      ih fun b hb => hp b (by simp [hb])]

theorem fbMatches_closeTag {t x : Str} (ht : ∀ c ∈ t, lowerAlpha c = true) :
    fbMatches ('<' :: '/' :: (t ++ '>' :: x)) = fbMatches x := by
  have h1 : matchAt ('<' :: '/' :: (t ++ '>' :: x)) = none := by
    have hci : ciPrefix outlinePat ('<' :: '/' :: (t ++ '>' :: x)) = false := by
      rw [show outlinePat = '<' :: 'o' :: 'u' :: 't' :: 'l' :: 'i' :: 'n' :: ['e'] from rfl]
      simp [ciPrefix, ciChar_self, show ciChar 'o' '/' = false from by decide]
    unfold matchAt
    simp [hci]
  rw [fbMatches_skip h1]
  have hshape : '/' :: (t ++ '>' :: x) = ('/' :: (t ++ ['>'])) ++ x := by simp
  rw [hshape]
  apply fbMatches_skip_no_lt
  intro c hc
  simp only [List.mem_cons, List.mem_append, List.mem_singleton, List.not_mem_nil,
    or_false] at hc
  rcases hc with rfl | hc | rfl
  · decide
  · exact lowerAlpha_ne_lt (ht c hc)
  · decide

theorem ciPrefix_lower_through {w : Str} (hw : ∀ c ∈ w, lowerAlpha c = true) :
    ∀ {t : Str}, (∀ c ∈ t, lowerAlpha c = true) →
    ∀ {d : Char}, ¬(97 ≤ d.toNat ∧ d.toNat ≤ 122) → ¬(65 ≤ d.toNat ∧ d.toNat ≤ 90) →
    ∀ {X : Str}, ciPrefix w (t ++ d :: X) = true → isPref w t = true := by
  induction w with
  | nil => intro t _ d _ _ X _; rfl
  | cons p ws ih =>
    intro t htl d hd1 hd2 X h
    have hp : lowerAlpha p = true := hw p (by simp)
    cases t with
    | nil =>
      rw [List.nil_append, ciPrefix_cons_iff] at h
      have hpl : p.toLower = p := lowerAlpha_toLower_self hp
      have hdl : d.toLower = d := toLower_self_of_not_upper hd2
      simp only [ciChar, decide_eq_true_eq, hpl, hdl] at h
      have := h.1
      subst this
      simp only [lowerAlpha, Bool.and_eq_true, decide_eq_true_eq] at hp
      exact absurd hp hd1
    | cons c ts =>
      rw [List.cons_append, ciPrefix_cons_iff] at h
      have hc : lowerAlpha c = true := htl c (by simp)
      have hce : c = p := ciChar_lower_eq (lowerAlpha_toLower_self hp) hc h.1
      subst hce
      rw [show isPref (c :: ws) (c :: ts) = isPref ws ts from by simp [isPref]]
      exact ih (fun b hb => hw b (by simp [hb])) (fun b hb => htl b (by simp [hb]))
        hd1 hd2 h.2

theorem matchAt_tag_none {t : Str} (htl : ∀ c ∈ t, lowerAlpha c = true)
    {a : List (Str × Str)} (ha : ∀ p ∈ a, cleanAttr p = true)
    (hcond : t ≠ outlineT ∨ attrGet xmlUrlT a = none) (z : Str) :
    matchAt ('<' :: (t ++ (attrsText a ++ '>' :: z))) = none := by
  by_cases hpref : isPref outlineT t = true
  · obtain ⟨t2, ht2⟩ := isPref_exists hpref
    subst ht2
    cases t2 with
    | nil =>
      rcases hcond with h | hnone
      · exact absurd (by simp) h
      · simp only [List.append_nil]
        have hsh : '<' :: (outlineT ++ (attrsText a ++ '>' :: z)) =
            outlinePat ++ (attrsText a ++ '>' :: z) := rfl
        rw [hsh]
        exact matchAt_openTag_none_noUrl ha hnone z
    | cons c2 t2r =>
      have hsh : '<' :: ((outlineT ++ c2 :: t2r) ++ (attrsText a ++ '>' :: z)) =
          outlinePat ++ (c2 :: (t2r ++ (attrsText a ++ '>' :: z))) := rfl
      rw [hsh]
      have hdrop : List.drop 8 (outlinePat ++ (c2 :: (t2r ++ (attrsText a ++ '>' :: z)))) =
          c2 :: (t2r ++ (attrsText a ++ '>' :: z)) := by
        rw [show (8 : Nat) = outlinePat.length from rfl]
        exact List.drop_left _ _
      have hws : isPyWs c2 = false := lowerAlpha_not_ws (htl c2 (by simp))
      unfold matchAt
      cases hci : ciPrefix outlinePat (outlinePat ++ (c2 :: (t2r ++ (attrsText a ++ '>' :: z)))) with
      | false => simp [hci]
      | true =>
        rw [hdrop]
        simp [hci, hws]
  · have hci : ciPrefix outlinePat ('<' :: (t ++ (attrsText a ++ '>' :: z))) = false := by
      cases hc : ciPrefix outlinePat ('<' :: (t ++ (attrsText a ++ '>' :: z))) with
      | false => rfl
      | true =>
        exfalso
        rw [show outlinePat = '<' :: outlineT from rfl, ciPrefix_cons_iff] at hc
        have hcitail := hc.2
        cases a with
        | nil =>
          rw [show attrsText [] = ([] : Str) from rfl, List.nil_append] at hcitail
          exact absurd
            (ciPrefix_lower_through (by decide) htl (by decide) (by decide) hcitail) hpref
        | cons p rest0 =>
          obtain ⟨n, v⟩ := p
          rw [show attrsText ((n, v) :: rest0) ++ '>' :: z =
            ' ' :: ((n ++ '=' :: quoteC :: (escAttr v ++ quoteC :: attrsText rest0)) ++
              '>' :: z) from by simp [attrsText]] at hcitail
          exact absurd
            (ciPrefix_lower_through (by decide) htl (by decide) (by decide) hcitail) hpref
    unfold matchAt
    simp [hci]

/-! ## Fallback scan over a serialized tree -/

mutual
theorem fb_elem_urls : ∀ (e : XmlElem), cleanElem e = true → ∀ (tail : Str),
    (fbMatches (serializeElem e ++ tail)).map FbMatch.url =
      elemUrls e ++ (fbMatches tail).map FbMatch.url
  | XmlElem.mk t a cs, he, tail => by
    obtain ⟨hne, htl, ha, hcs⟩ := cleanElem_mk_iff.1 he
    have hsh : serializeElem (XmlElem.mk t a cs) ++ tail =
        '<' :: (t ++ (attrsText a ++ '>' ::
          (serializeForest cs ++ ('<' :: '/' :: (t ++ '>' :: tail))))) := by
      simp [serializeElem]
    rw [hsh]
    have hz := fb_forest_urls cs hcs ('<' :: '/' :: (t ++ '>' :: tail))
    have hclose : fbMatches ('<' :: '/' :: (t ++ '>' :: tail)) = fbMatches tail :=
      fbMatches_closeTag htl
    by_cases hqual : t = outlineT ∧ (attrGet xmlUrlT a).isSome = true
    · obtain ⟨ht, hsome⟩ := hqual
      subst ht
      obtain ⟨u, hget⟩ := Option.isSome_iff_exists.1 hsome
      cases a with
      | nil => simp [attrGet] at hget
      | cons p rest0 =>
        obtain ⟨n, v⟩ := p
        have hm := matchAt_openTag_some ha hget
          (serializeForest cs ++ ('<' :: '/' :: (outlineT ++ '>' :: tail)))
        have hpatsh : '<' :: (outlineT ++ (attrsText ((n, v) :: rest0) ++ '>' ::
            (serializeForest cs ++ ('<' :: '/' :: (outlineT ++ '>' :: tail))))) =
            outlinePat ++ (attrsText ((n, v) :: rest0) ++ '>' ::
              (serializeForest cs ++ ('<' :: '/' :: (outlineT ++ '>' :: tail)))) := rfl
        rw [hpatsh, fbMatches_match hm]
        show u :: (fbMatches (serializeForest cs ++
            ('<' :: '/' :: (outlineT ++ '>' :: tail)))).map FbMatch.url = _
        rw [hz, hclose]
        have helem : elemUrls (XmlElem.mk outlineT ((n, v) :: rest0) cs) =
            u :: forestUrls cs := by
          simp [elemUrls, hget]
        rw [helem]
        simp
    · have hcond : t ≠ outlineT ∨ attrGet xmlUrlT a = none := by
        by_cases ht : t = outlineT
        · right
          cases hg : attrGet xmlUrlT a with
          | none => rfl
          | some u => exact absurd ⟨ht, by simp [hg]⟩ hqual
        · exact Or.inl ht
      have hm := matchAt_tag_none htl ha hcond
        (serializeForest cs ++ ('<' :: '/' :: (t ++ '>' :: tail)))
      rw [fbMatches_skip hm]
      have hsh2 : t ++ (attrsText a ++ '>' ::
          (serializeForest cs ++ ('<' :: '/' :: (t ++ '>' :: tail)))) =
          (t ++ (attrsText a ++ ['>'])) ++
            (serializeForest cs ++ ('<' :: '/' :: (t ++ '>' :: tail))) := by simp
      have hnolt : ∀ c ∈ t ++ (attrsText a ++ ['>']), c ≠ '<' := by
        intro c hc
        simp only [List.mem_append, List.mem_singleton] at hc
        rcases hc with hc | hc | rfl
        · exact lowerAlpha_ne_lt (htl c hc)
        · exact attrsText_ne_lt ha c hc
        · decide
      rw [hsh2, fbMatches_skip_no_lt hnolt, hz, hclose]
      have helem : elemUrls (XmlElem.mk t a cs) = forestUrls cs := by
        rcases hcond with ht | hg
        · cases hg2 : attrGet xmlUrlT a <;> simp [elemUrls, hg2, ht]
        · simp [elemUrls, hg]
      rw [helem]

theorem fb_forest_urls : ∀ (es : List XmlElem), cleanForest es = true → ∀ (tail : Str),
    (fbMatches (serializeForest es ++ tail)).map FbMatch.url =
      forestUrls es ++ (fbMatches tail).map FbMatch.url
  | [], _, tail => by simp [serializeForest, forestUrls]
  | e :: es, hes, tail => by
    obtain ⟨he, hesr⟩ := cleanForest_cons_iff.1 hes
    have hsh : serializeForest (e :: es) ++ tail =
        serializeElem e ++ (serializeForest es ++ tail) := by
      simp [serializeForest]
    rw [hsh, fb_elem_urls e he (serializeForest es ++ tail),
      fb_forest_urls es hesr tail]
    simp [forestUrls]
end

theorem fb_scan_urls {root : XmlElem} (h : cleanElem root = true) :
    (fbMatches (serializeElem root)).map FbMatch.url = elemUrls root := by
  have hw := fb_elem_urls root h []
  rw [List.append_nil] at hw
  rw [hw, show fbMatches [] = [] from rfl]
  simp

mutual
theorem url_of_desc_elem : ∀ (root e : XmlElem), e ∈ descElem root →
    e.tag = outlineT → ∀ u, attrGet xmlUrlT e.attrs = some u → u ∈ elemUrls root
  | XmlElem.mk t a cs, e, he, ht, u, hu => by
    rw [show descElem (XmlElem.mk t a cs) = XmlElem.mk t a cs :: descForest cs from rfl,
      List.mem_cons] at he
    rcases he with rfl | he
    · simp only [XmlElem.tag] at ht
      simp only [XmlElem.attrs] at hu
      subst ht
      simp [elemUrls, hu]
    · have hrec := url_of_desc_forest cs e he ht u hu
      have hsh : elemUrls (XmlElem.mk t a cs) = (match attrGet xmlUrlT a with
          | some w => if t = outlineT then [w] else []
          | none => []) ++ forestUrls cs := rfl
      rw [hsh]
      exact List.mem_append_right _ hrec

theorem url_of_desc_forest : ∀ (es : List XmlElem) (e : XmlElem), e ∈ descForest es →
    e.tag = outlineT → ∀ u, attrGet xmlUrlT e.attrs = some u → u ∈ forestUrls es
  | [], e, he, _, _, _ => by simp [descForest] at he
  | r :: rs, e, he, ht, u, hu => by
    rw [show descForest (r :: rs) = descElem r ++ descForest rs from rfl,
      List.mem_append] at he
    rw [show forestUrls (r :: rs) = elemUrls r ++ forestUrls rs from rfl]
    rcases he with he | he
    · exact List.mem_append_left _ (url_of_desc_elem r e he ht u hu)
    · exact List.mem_append_right _ (url_of_desc_forest rs e he ht u hu)
end

theorem fbRecordOf_some_of_url (cat : Str) {m : FbMatch} (h : m.url ≠ []) :
    ∃ r, fbRecordOf cat m = some r ∧ r.url = m.url ∧ r.category = cat := by
  unfold fbRecordOf
  rw [if_neg h]
  exact ⟨_, rfl, rfl, rfl⟩

/-- C7: as stated the claim is false.  For the well-formed document
`<opml><outline xmlUrl="a&amp;b"></outline></opml>` — the serialization
of a tree whose outline carries the attribute value `a&b` — the primary
tree walk emits the entity-decoded url `a&b`, while the fallback scan
run directly on the document text captures the raw `a&amp;b`, so the
primary `(url, category)` pair is not among the fallback pairs. -/
theorem c7_counterexample :
    ¬ (∀ pr ∈ pairsOf (primaryRecords
        (XmlElem.mk "opml".toList []
          [XmlElem.mk "outline".toList [("xmlUrl".toList, "a&b".toList)] []]) "c".toList),
      pr ∈ pairsOf (fbRecords (serializeElem
        (XmlElem.mk "opml".toList []
          [XmlElem.mk "outline".toList [("xmlUrl".toList, "a&b".toList)] []])) "c".toList)) := by
  decide

/-- C7, amended: for a well-behaved document — the serialization of a
tree with lowercase alphabetic tag names, alphabetic attribute names
that are either exactly `xmlUrl` or do not contain `xmlUrl` up to case,
and attribute values free of `& < > " =` — every `(url, category)` pair
produced by the primary tree walk is also produced by the fallback
pattern scan run directly on the document text. -/
theorem c7_amended (root : XmlElem) (cat : Str) (hclean : cleanElem root = true) :
    ∀ pr ∈ pairsOf (primaryRecords root cat),
      pr ∈ pairsOf (fbRecords (serializeElem root) cat) := by
  intro pr hpr
  simp only [pairsOf, List.mem_map] at hpr
  obtain ⟨r, hr, heq⟩ := hpr
  subst heq
  simp only [primaryRecords, findallOutline, List.mem_filterMap] at hr
  obtain ⟨e, he, hrec⟩ := hr
  have hef := List.mem_filter.1 he
  have htag : e.tag = outlineT := by simpa using hef.2
  have hdesc : e ∈ descForest root.children := hef.1
  obtain ⟨hurl, hne, hcat, _, _⟩ := recordOf_fields hrec
  have h1 : r.url ∈ forestUrls root.children :=
    url_of_desc_forest root.children e hdesc htag r.url hurl
  have h2 : r.url ∈ elemUrls root := by
    cases root with
    | mk t a cs =>
      have hsh : elemUrls (XmlElem.mk t a cs) = (match attrGet xmlUrlT a with
          | some w => if t = outlineT then [w] else []
          | none => []) ++ forestUrls cs := rfl
      rw [hsh]
      exact List.mem_append_right _ h1
  have h3 : r.url ∈ (fbMatches (serializeElem root)).map FbMatch.url := by
    rw [fb_scan_urls hclean]
    exact h2
  obtain ⟨m, hm, hmu⟩ := List.mem_map.1 h3
  obtain ⟨r2, hr2, hr2u, hr2c⟩ :=
    fbRecordOf_some_of_url cat (show m.url ≠ [] by rw [hmu]; exact hne)
  have hr2mem : r2 ∈ fbRecords (serializeElem root) cat :=
    List.mem_filterMap.2 ⟨m, hm, hr2⟩
  have hfinal : (r2.url, r2.category) ∈ pairsOf (fbRecords (serializeElem root) cat) :=
    List.mem_map_of_mem _ hr2mem
  rw [hr2u, hmu, hr2c] at hfinal
  rw [hcat]
  exact hfinal

/-- Witness for the amended C7 at a concrete well-behaved document. -/
theorem c7_amended_witness :
    cleanElem (XmlElem.mk "opml".toList []
      [XmlElem.mk "outline".toList [("xmlUrl".toList, "u".toList)] []]) = true ∧
    ("u".toList, "c".toList) ∈ pairsOf (fbRecords (serializeElem
      (XmlElem.mk "opml".toList []
        [XmlElem.mk "outline".toList [("xmlUrl".toList, "u".toList)] []])) "c".toList) :=
  ⟨by decide, c7_amended _ _ (by decide) _ (by decide)⟩
